import Mathlib

/-!
# MacRuby `enumerator.c`: a shallow embedding

The C functions of `enumerator.c` are embedded as Lean functions over an explicit
world state.  Enumerator structs and Ruby arrays are heap objects with identity,
the block of the calling frame is a function argument, and every dispatch of an
iteration routine and every invocation of the block is recorded in a log, so that
"the block was invoked with ..." and "the routine was not invoked" are statements
about that log.
-/

set_option autoImplicit false

namespace MacRuby

/-! ## Values, heap objects and the world -/

/-- Selectors (`SEL`).  `0` is the `NULL` selector of a zeroed struct. -/
abbrev SEL := Nat

/-- Ruby values (`VALUE`).  Arrays and enumerators are references into the heap;
`zero` is the machine word `0` found in a struct field that was never written. -/
inductive VALUE where
  | zero
  | Qnil
  | Qfalse
  | Qtrue
  | int (n : Int)
  | obj (id : Nat)
  | ary (a : Nat)
  | data (p : Nat)
  deriving DecidableEq, Repr

/-- The C truth test on a `VALUE` word, as in `if (v)`: the never-written word
`zero` and `Qfalse` are both the machine word `0`; every other value is non-zero. -/
def VALUE.isWordZero : VALUE → Bool
  | VALUE.zero => true
  | VALUE.Qfalse => true
  | _ => false

/-- Exceptions raised through `rb_raise`. -/
inductive Exc where
  | ArgError (msg : String)
  | TypeError (msg : String)
  | RangeError (msg : String)
  | RuntimeError (msg : String)
  | StopIteration (msg : String)
  deriving DecidableEq, Repr

/-- The C struct `struct enumerator`.  `args` is `0` (here `none`) or the Array
built by `rb_ary_new4` in `enumerator_init`; that Array is private to the struct
(only its elements are ever handed out), so it is kept by contents. -/
structure enumerator where
  obj : VALUE
  sel : SEL
  args : Option (List VALUE)
  fib : VALUE
  dst : VALUE
  no_next : VALUE
  deriving DecidableEq, Repr

/-- A Ruby Array object: its elements and its frozen flag. -/
structure RArray where
  elts : List VALUE
  frozen : Bool
  deriving DecidableEq, Repr

/-- What the log records: a dispatch of an iteration routine by
`rb_objc_block_call`, or an invocation of the block of the calling frame,
together with the array heap the block saw on entry. -/
inductive Event where
  | call (recv : VALUE) (sel : SEL) (argv : List VALUE)
  | yield (argv : List VALUE) (arrays : List RArray)
  deriving DecidableEq, Repr

/-- The world: enumerator structs (address = index), Array objects
(address = index) and the log of dispatches and block invocations. -/
structure World where
  enums : List enumerator
  arrays : List RArray
  log : List Event
  deriving DecidableEq, Repr

/-- Outcome of a C function: a normal return or an `rb_raise`, each with the
world it leaves behind. -/
inductive Res (α : Type) where
  | ok (v : α) (w : World)
  | raise (e : Exc) (w : World)
  deriving DecidableEq, Repr

/-- A block that returns normally (no `break`, no exception): it sees its
arguments and the array heap, may mutate or allocate arrays, and returns a value. -/
abbrev Block := List VALUE → List RArray → VALUE × List RArray

/-- What an iteration routine does when driven: the value tuples it hands to its
block, in order, and its return value as a function of the last block result. -/
structure Routine where
  emits : List (List VALUE)
  result : Option VALUE → VALUE

/-- The parts of the runtime that `enumerator.c` uses but does not define:
the class object `rb_cEnumerator` (set up by `Init_Enumerator`), the selector
`selEach`, the conversion `NUM2LONG`, the number of tag bits of a
Fixnum, and method dispatch (which routine a receiver runs for a selector and
arguments). -/
structure Runtime where
  rb_cEnumerator : VALUE
  selEach : SEL
  NUM2LONG : VALUE → Except Exc Int
  tagBits : Nat
  dispatch : VALUE → SEL → List VALUE → Routine

/-! ## Runtime helpers used by `enumerator.c` -/

/-- Modelled from the spec: `rb_ary_new2` (array.c) is not in this file; it
allocates a new, empty, unfrozen Array (the argument is only a capacity). -/
def rb_ary_new2 (_size : Int) (w : World) : VALUE × World :=
  (VALUE.ary w.arrays.length, { w with arrays := w.arrays ++ [⟨[], false⟩] })

/-- Modelled from the spec: `rb_ary_new4` (array.c) is not in this file; it
allocates a new unfrozen Array holding the `argc` values at `argv`. -/
def rb_ary_new4 (argv : List VALUE) (w : World) : VALUE × World :=
  (VALUE.ary w.arrays.length, { w with arrays := w.arrays ++ [⟨argv, false⟩] })

/-- Modelled from the spec: `RARRAY_LEN` (ruby.h) is not in this file; the number
of elements of an Array. -/
def RARRAY_LEN (w : World) : VALUE → Int
  | VALUE.ary a => ((w.arrays[a]?).map (fun r => (r.elts.length : Int))).getD 0
  | _ => 0

/-- Modelled from the spec: `rb_ary_push` (array.c) is not in this file; it
appends in place, and refuses a frozen Array or a non-Array. -/
def rb_ary_push (ary val : VALUE) (w : World) : Res VALUE :=
  match ary with
  | VALUE.ary a =>
    match w.arrays[a]? with
    | some r =>
      if r.frozen then Res.raise (Exc.RuntimeError "frozen array") w
      else Res.ok ary { w with arrays := w.arrays.set a { r with elts := r.elts ++ [val] } }
    | none => Res.raise (Exc.TypeError "not an array") w
  | _ => Res.raise (Exc.TypeError "not an array") w

/-- Modelled from the spec: `rb_ary_shift` (array.c) is not in this file; it
removes the first element in place and returns it (`nil` when empty), and refuses
a frozen Array or a non-Array. -/
def rb_ary_shift (ary : VALUE) (w : World) : Res VALUE :=
  match ary with
  | VALUE.ary a =>
    match w.arrays[a]? with
    | some r =>
      if r.frozen then Res.raise (Exc.RuntimeError "frozen array") w
      else Res.ok (r.elts.headD VALUE.Qnil)
        { w with arrays := w.arrays.set a { r with elts := r.elts.tail } }
    | none => Res.raise (Exc.TypeError "not an array") w
  | _ => Res.raise (Exc.TypeError "not an array") w

/-- Modelled from the spec: `rb_ary_dup` (array.c) is not in this file; it
allocates a new unfrozen Array with the same elements. -/
def rb_ary_dup (ary : VALUE) (w : World) : VALUE × World :=
  match ary with
  | VALUE.ary a => rb_ary_new4 (((w.arrays[a]?).map (fun r => r.elts)).getD []) w
  | _ => rb_ary_new4 [] w

/-- Modelled from the spec: `rb_yield_values2` (the dispatch system) is not in
this file; it invokes the block of the calling frame with `argv`.  The invocation
is logged with the array heap on entry; the block may change the array heap. -/
def rb_yield_values2 (blk : Block) (argv : List VALUE) (w : World) : VALUE × World :=
  let r := blk argv w.arrays
  (r.1, { w with arrays := r.2, log := w.log ++ [Event.yield argv w.arrays] })

/-- Modelled from the spec: `rb_yield` invokes the block with one value. -/
def rb_yield (blk : Block) (v : VALUE) (w : World) : VALUE × World :=
  rb_yield_values2 blk [v] w

/-- Modelled from the spec: `rb_yield_values(2, a, b)` invokes the block with
two values. -/
def rb_yield_values (blk : Block) (a b : VALUE) (w : World) : VALUE × World :=
  rb_yield_values2 blk [a, b] w

/-- The loop of the driven routine: for every emitted tuple, call the callback
`func(val, arg, argc, argv)` with `val` the first value of the tuple (`nil` for an
empty tuple); stop at the first exception. -/
def iterate {σ : Type} (func : VALUE → σ → List VALUE → World → Res (VALUE × σ)) :
    List (List VALUE) → Option VALUE → σ → World → Res (Option VALUE × σ)
  | [], last, s, w => Res.ok (last, s) w
  | t :: ts, _, s, w =>
    match func (t.headD VALUE.Qnil) s t w with
    | Res.ok r w1 => iterate func ts (some r.1) r.2 w1
    | Res.raise e w1 => Res.raise e w1

/-- Modelled from the spec: `rb_objc_block_call` (the dispatch system, spec 4.1
`drive`) is not in this file.  It invokes routine `sel` of `obj` with the bound
arguments, and the routine calls `func` once per emitted tuple, in emission
order.  The dispatch is logged.  The callback state `arg` (the memo the C code
passes by pointer) is threaded through and returned. -/
def rb_objc_block_call {σ : Type} (rt : Runtime) (obj : VALUE) (sel : SEL)
    (argv : List VALUE) (func : VALUE → σ → List VALUE → World → Res (VALUE × σ))
    (arg : σ) (w : World) : Res (VALUE × σ) :=
  let r := rt.dispatch obj sel argv
  match iterate func r.emits none arg { w with log := w.log ++ [Event.call obj sel argv] } with
  | Res.ok p w1 => Res.ok (r.result p.1, p.2) w1
  | Res.raise e w1 => Res.raise e w1

/-! ## `enumerator.c` -/

/-- Source function `enumerator_ptr`: the struct behind an enumerator object.  `Data_Get_Struct`
refuses a non-data object; a data object without a struct is "uninitialized". -/
def enumerator_ptr (obj : VALUE) (w : World) : Except Exc (Nat × enumerator) :=
  match obj with
  | VALUE.data p =>
    match w.enums[p]? with
    | some e => Except.ok (p, e)
    | none => Except.error (Exc.ArgError "uninitialized enumerator")
  | _ => Except.error (Exc.TypeError "wrong argument type")

/-- Store struct `e` at address `p`. -/
def World.store (w : World) (p : Nat) (e : enumerator) : World :=
  { w with enums := w.enums.set p e }

/-- Source function `each_slice_i`: push `val` on the buffer `memo[0]`; when the buffer has
`memo[1]` elements, yield the buffer itself and put a new Array in `memo[0]`. -/
def each_slice_i (blk : Block) (val : VALUE) (memo : VALUE × Int) (_argv : List VALUE)
    (w : World) : Res (VALUE × (VALUE × Int)) :=
  let ary := memo.1
  let size := memo.2
  match rb_ary_push ary val w with
  | Res.raise e w1 => Res.raise e w1
  | Res.ok _ w1 =>
    if RARRAY_LEN w1 ary = size then
      let y := rb_yield blk ary w1
      let a := rb_ary_new2 size y.2
      Res.ok (y.1, (a.1, size)) a.2
    else Res.ok (VALUE.Qnil, memo) w1

/-- Source function `enumerator_allocate`: `Data_Make_Struct` allocates a zeroed struct. -/
def enumerator_allocate (_klass : VALUE) (_sel : SEL) (w : World) : VALUE × World :=
  (VALUE.data w.enums.length,
   { w with enums := w.enums ++ [⟨VALUE.zero, 0, none, VALUE.zero, VALUE.zero, VALUE.zero⟩] })

/-- Source function `enumerator_each_i`: pass the emitted tuple on to the block unchanged. -/
def enumerator_each_i (blk : Block) (_v : VALUE) (enum_obj : VALUE) (argv : List VALUE)
    (w : World) : Res (VALUE × VALUE) :=
  let y := rb_yield_values2 blk argv w
  Res.ok (y.1, enum_obj) y.2

/-- Source function `enumerator_init`: fill in the descriptor and clear the cursor fields;
`args` is written only when `argc > 0`. -/
def enumerator_init (enum_obj obj : VALUE) (sel : SEL) (argv : List VALUE) (w : World) :
    Res VALUE :=
  match enumerator_ptr enum_obj w with
  | Except.error e => Res.raise e w
  | Except.ok (p, e) =>
    Res.ok enum_obj (w.store p
      { obj := obj, sel := sel,
        args := if 0 < argv.length then some argv else e.args,
        fib := VALUE.zero, dst := VALUE.Qnil, no_next := VALUE.Qfalse })

/-- Source function `enumerator_init_copy`: refuse an original whose `fib` is a non-zero
word (`if (ptr0->fib)`), else copy the descriptor (`args` only when the original
has one) and clear `fib`. -/
def enumerator_init_copy (obj : VALUE) (_sel : SEL) (orig : VALUE) (w : World) : Res VALUE :=
  match enumerator_ptr orig w with
  | Except.error e => Res.raise e w
  | Except.ok (_, ptr0) =>
    if VALUE.isWordZero ptr0.fib = false then
      Res.raise (Exc.TypeError "can\x27t copy execution context") w
    else
      match enumerator_ptr obj w with
      | Except.error e => Res.raise e w
      | Except.ok (p1, ptr1) =>
        Res.ok obj (w.store p1
          { ptr1 with
            obj := ptr0.obj, sel := ptr0.sel,
            args := if ptr0.args ≠ none then ptr0.args else ptr1.args,
            fib := VALUE.zero })

/-- Source function `rb_enumeratorize`: allocate an enumerator and run `enumerator_init` on it. -/
def rb_enumeratorize (rt : Runtime) (obj : VALUE) (sel : SEL) (argv : List VALUE)
    (w : World) : Res VALUE :=
  let a := enumerator_allocate rt.rb_cEnumerator 0 w
  enumerator_init a.1 obj sel argv a.2

/-- Source function `enum_each_slice`: check the size, return an enumerator when there is no
block (`RETURN_ENUMERATOR`), else drive `each` with `each_slice_i` and yield the
buffer once more when it is not empty. -/
def enum_each_slice (rt : Runtime) (blk : Option Block)
    (obj : VALUE) (sel : SEL) (n : VALUE) (w : World) : Res VALUE :=
  match rt.NUM2LONG n with
  | Except.error e => Res.raise e w
  | Except.ok size =>
    if size ≤ 0 then Res.raise (Exc.ArgError "invalid slice size") w
    else
      match blk with
      | none => rb_enumeratorize rt obj sel [n] w
      | some b =>
        let a := rb_ary_new2 size w
        match rb_objc_block_call rt obj rt.selEach [] (each_slice_i b) (a.1, size) a.2 with
        | Res.raise e w1 => Res.raise e w1
        | Res.ok r w1 =>
          let ary := r.2.1
          if RARRAY_LEN w1 ary > 0 then Res.ok VALUE.Qnil (rb_yield b ary w1).2
          else Res.ok VALUE.Qnil w1

/-- Source function `each_cons_i`: when the buffer already has `memo[1]` elements shift the
oldest out, push `val`, and when the buffer then has `memo[1]` elements yield a
duplicate of it. -/
def each_cons_i (blk : Block) (val : VALUE) (memo : VALUE × Int) (_argv : List VALUE)
    (w : World) : Res (VALUE × (VALUE × Int)) :=
  let ary := memo.1
  let size := memo.2
  match (if RARRAY_LEN w ary = size then rb_ary_shift ary w else Res.ok VALUE.Qnil w) with
  | Res.raise e w1 => Res.raise e w1
  | Res.ok _ w1 =>
    match rb_ary_push ary val w1 with
    | Res.raise e w2 => Res.raise e w2
    | Res.ok _ w2 =>
      if RARRAY_LEN w2 ary = size then
        let d := rb_ary_dup ary w2
        let y := rb_yield blk d.1 d.2
        Res.ok (y.1, memo) y.2
      else Res.ok (VALUE.Qnil, memo) w2

/-- Source function `enum_each_cons`: check the size, return an enumerator when there is no
block, else drive `each` with `each_cons_i`. -/
def enum_each_cons (rt : Runtime) (blk : Option Block)
    (obj : VALUE) (sel : SEL) (n : VALUE) (w : World) : Res VALUE :=
  match rt.NUM2LONG n with
  | Except.error e => Res.raise e w
  | Except.ok size =>
    if size ≤ 0 then Res.raise (Exc.ArgError "invalid size") w
    else
      match blk with
      | none => rb_enumeratorize rt obj sel [n] w
      | some b =>
        let a := rb_ary_new2 size w
        match rb_objc_block_call rt obj rt.selEach [] (each_cons_i b) (a.1, size) a.2 with
        | Res.raise e w1 => Res.raise e w1
        | Res.ok _ w1 => Res.ok VALUE.Qnil w1

/-- Source function `enumerator_block_call`: drive the routine of the descriptor on the source of
the descriptor with the bound arguments (none when `args` is `0`). -/
def enumerator_block_call {σ : Type} (rt : Runtime) (obj : VALUE)
    (func : VALUE → σ → List VALUE → World → Res (VALUE × σ)) (arg : σ) (w : World) :
    Res (VALUE × σ) :=
  match enumerator_ptr obj w with
  | Except.error e => Res.raise e w
  | Except.ok (_, e) => rb_objc_block_call rt e.obj e.sel (e.args.getD []) func arg w

/-- Source function `enumerator_each`: without a block return the receiver, else drive the
descriptor with `enumerator_each_i`. -/
def enumerator_each (rt : Runtime) (blk : Option Block) (obj : VALUE) (_sel : SEL)
    (w : World) : Res VALUE :=
  match blk with
  | none => Res.ok obj w
  | some b =>
    match enumerator_block_call rt obj (enumerator_each_i b) obj w with
    | Res.raise e w1 => Res.raise e w1
    | Res.ok r w1 => Res.ok r.1 w1

/-- A C `long` stored in a `VALUE` word: the cast `(VALUE)x` on a 64-bit target. -/
def LONG2WORD (x : Int) : Nat := (x % 2 ^ 64).toNat

/-- A `VALUE` word read back as a `long`: the cast `(SIGNED_VALUE)w`. -/
def WORD2LONG (w : Nat) : Int := if w < 2 ^ 63 then (w : Int) else (w : Int) - 2 ^ 64

/-- Modelled from the spec: `INT2FIX` (ruby.h) is not in this file.  It shifts the
signed word left by the tag bits and sets the Fixnum flag; the result is the
Fixnum whose value is the tagged word shifted back arithmetically. -/
def INT2FIX (rt : Runtime) (w : Nat) : VALUE :=
  VALUE.int (WORD2LONG ((w * 2 ^ rt.tagBits) % 2 ^ 64) / 2 ^ rt.tagBits)

/-- Largest Fixnum: `LONG_MAX >> tagBits`. -/
def FIXNUM_MAX (rt : Runtime) : Int := 2 ^ (63 - rt.tagBits) - 1

/-- Smallest Fixnum: `LONG_MIN >> tagBits`. -/
def FIXNUM_MIN (rt : Runtime) : Int := -(2 ^ (63 - rt.tagBits))

/-- Source function `enumerator_with_index_i`: tag the counter `*memo` as the index, increment the
counter (a machine word), and yield `(val, idx)`, or `(array of the tuple, idx)`
when the step emitted more than one value. -/
def enumerator_with_index_i (rt : Runtime) (blk : Block) (val : VALUE) (memo : Nat)
    (argv : List VALUE) (w : World) : Res (VALUE × Nat) :=
  let idx := INT2FIX rt memo
  let memo1 := (memo + 1) % 2 ^ 64
  if argv.length ≤ 1 then
    let y := rb_yield_values blk val idx w
    Res.ok (y.1, memo1) y.2
  else
    let a := rb_ary_new4 argv w
    let y := rb_yield_values blk a.1 idx a.2
    Res.ok (y.1, memo1) y.2

/-- Source function `enumerator_with_index`: at most one argument (`rb_scan_args` with "01"),
return an enumerator when there is no block, else start the counter at the offset
(`0` for `nil`) and drive the descriptor with `enumerator_with_index_i`. -/
def enumerator_with_index (rt : Runtime) (blk : Option Block) (obj : VALUE) (sel : SEL)
    (argv : List VALUE) (w : World) : Res VALUE :=
  if 1 < argv.length then Res.raise (Exc.ArgError "wrong number of arguments") w
  else
    let memo := argv.headD VALUE.Qnil
    match blk with
    | none => rb_enumeratorize rt obj sel argv w
    | some b =>
      match (if memo = VALUE.Qnil then Except.ok 0 else rt.NUM2LONG memo) with
      | Except.error e => Res.raise e w
      | Except.ok off =>
        match enumerator_block_call rt obj (enumerator_with_index_i rt b) (LONG2WORD off) w with
        | Res.raise e w1 => Res.raise e w1
        | Res.ok r w1 => Res.ok r.1 w1

/-- Source function `enumerator_each_with_index`: `enumerator_with_index` without arguments. -/
def enumerator_each_with_index (rt : Runtime) (blk : Option Block) (obj : VALUE) (sel : SEL)
    (w : World) : Res VALUE :=
  enumerator_with_index rt blk obj sel [] w

/-- Source function `enumerator_with_object_i`: yield `(val, memo)`, or `(array of the tuple, memo)`
when the step emitted more than one value. -/
def enumerator_with_object_i (blk : Block) (val : VALUE) (memo : VALUE)
    (argv : List VALUE) (w : World) : Res (VALUE × VALUE) :=
  if argv.length ≤ 1 then
    let y := rb_yield_values blk val memo w
    Res.ok (y.1, memo) y.2
  else
    let a := rb_ary_new4 argv w
    let y := rb_yield_values blk a.1 memo a.2
    Res.ok (y.1, memo) y.2

/-- Source function `enumerator_with_object`: return an enumerator when there is no block, else
drive the descriptor with `enumerator_with_object_i` and return `memo`. -/
def enumerator_with_object (rt : Runtime) (blk : Option Block) (obj : VALUE) (sel : SEL)
    (memo : VALUE) (w : World) : Res VALUE :=
  match blk with
  | none => rb_enumeratorize rt obj sel [memo] w
  | some b =>
    match enumerator_block_call rt obj (enumerator_with_object_i b) memo w with
    | Res.raise e w1 => Res.raise e w1
    | Res.ok _ w1 => Res.ok memo w1

/-- Source function `enumerator_next` as compiled: the fiber code is inside `#if 0`, so the body
is `return Qnil;`. -/
def enumerator_next (_obj : VALUE) (_sel : SEL) (w : World) : Res VALUE :=
  Res.ok VALUE.Qnil w

/-- Source function `enumerator_rewind`: clear the three cursor fields and return the receiver. -/
def enumerator_rewind (obj : VALUE) (_sel : SEL) (w : World) : Res VALUE :=
  match enumerator_ptr obj w with
  | Except.error e => Res.raise e w
  | Except.ok (p, e) =>
    Res.ok obj (w.store p { e with fib := VALUE.zero, dst := VALUE.Qnil, no_next := VALUE.Qfalse })

/-- Modelled from the spec: `duplicate()` (`rb_obj_dup`, object.c) is not in this
file; it allocates an object of the same class with `alloc` and runs
`initialize_copy` on it with the original. -/
def duplicate (rt : Runtime) (orig : VALUE) (w : World) : Res VALUE :=
  let a := enumerator_allocate rt.rb_cEnumerator 0 w
  enumerator_init_copy a.1 0 orig a.2

/-! ## Pure counterparts and sample data -/

/-- A sample `NUM2LONG`: an Integer inside the `long` range converts to itself. -/
def sampleNUM2LONG : VALUE → Except Exc Int
  | VALUE.int n =>
    if -(2 : Int) ^ 63 ≤ n ∧ n < 2 ^ 63 then Except.ok n
    else Except.error (Exc.RangeError "bignum too big to convert into long")
  | _ => Except.error (Exc.TypeError "no implicit conversion to integer")

/-- A sample runtime: every routine emits the tuples `es` and returns its receiver;
Fixnums carry two tag bits. -/
def sampleRuntime (es : List (List VALUE)) : Runtime :=
  { rb_cEnumerator := VALUE.obj 0, selEach := 1, NUM2LONG := sampleNUM2LONG, tagBits := 2,
    dispatch := fun recv _ _ => ⟨es, fun _ => recv⟩ }

/-- The emissions of `(1..10).each`. -/
def oneToTen : List (List VALUE) := (List.range 10).map (fun i => [VALUE.int (i + 1)])

/-- A block that does nothing and returns `nil`. -/
def nopBlock : Block := fun _ h => (VALUE.Qnil, h)

/-- The empty world. -/
def emptyWorld : World := ⟨[], [], []⟩

/-- The array argument of a one-argument block invocation, by its contents on entry. -/
def Event.group : Event → Option (List VALUE)
  | Event.yield [VALUE.ary a] h => (h[a]?).map (fun r => r.elts)
  | _ => none

/-- Pure counterpart of the `each_slice_i` loop on the contents of the buffer:
the full groups handed out and the buffer left at the end. -/
def sliceLoop (n : Nat) : List VALUE → List VALUE → List (List VALUE) × List VALUE
  | buf, [] => ([], buf)
  | buf, x :: xs =>
    if (buf ++ [x]).length = n then ((buf ++ [x]) :: (sliceLoop n [] xs).1, (sliceLoop n [] xs).2)
    else sliceLoop n (buf ++ [x]) xs

/-- The first value of an emitted tuple: the `val` argument of a callback. -/
def firstVal (t : List VALUE) : VALUE := t.headD VALUE.Qnil

/-- The groups `each_slice` hands out: the full ones, then the rest when not empty. -/
def sliceGroups (n : Nat) (xs : List VALUE) : List (List VALUE) :=
  (sliceLoop n [] xs).1 ++
    (if 0 < (sliceLoop n [] xs).2.length then [(sliceLoop n [] xs).2] else [])

/-- A block that never writes to the existing Array at address `b` unless it was
handed that Array: the frame condition for an Array private to a combinator.  On
a heap that has no Array at `b` yet nothing is asked, so a block is free to
allocate. -/
def Block.keeps (blk : Block) (b : Nat) : Prop :=
  ∀ (argv : List VALUE) (h : List RArray), b < h.length → VALUE.ary b ∉ argv →
    (blk argv h).2[b]? = h[b]?

/-- Pure counterpart of the buffer update in `each_cons_i`: drop the oldest value
when the buffer is full, then append. -/
def consStep (n : Nat) (buf : List VALUE) (x : VALUE) : List VALUE :=
  (if buf.length = n then buf.tail else buf) ++ [x]

/-- Pure counterpart of the `each_cons_i` loop on the contents of the buffer:
the windows handed out and the buffer left at the end. -/
def consLoop (n : Nat) : List VALUE → List VALUE → List (List VALUE) × List VALUE
  | buf, [] => ([], buf)
  | buf, x :: xs =>
    if (consStep n buf x).length = n then
      (consStep n buf x :: (consLoop n (consStep n buf x) xs).1,
        (consLoop n (consStep n buf x) xs).2)
    else consLoop n (consStep n buf x) xs

/-- All windows of `n` consecutive elements of `l`, in order. -/
def allWindows (n : Nat) (l : List VALUE) : List (List VALUE) :=
  (List.range (l.length + 1 - n)).map (fun i => (l.drop i).take n)

/-- The arguments of a block invocation. -/
def Event.args : Event → Option (List VALUE)
  | Event.yield argv _ => some argv
  | Event.call _ _ _ => none

/-- The pairs `(x, index)` for consecutive indices starting at `off`. -/
def indexedFrom (off : Int) : List VALUE → List (List VALUE)
  | [] => []
  | x :: xs => [x, VALUE.int off] :: indexedFrom (off + 1) xs

/-- The emissions of `[a, b, c].each`, the three elements being opaque objects. -/
def abc : List (List VALUE) := [[VALUE.obj 1], [VALUE.obj 2], [VALUE.obj 3]]

/-- A world holding one initialised enumerator over `obj 7` with routine `1` and
no bound arguments. -/
def oneEnumWorld : World :=
  ⟨[⟨VALUE.obj 7, 1, none, VALUE.zero, VALUE.Qnil, VALUE.Qfalse⟩], [], []⟩

/-- Call `next` on `obj` `k` times in a row: what each call returned (`inr`) or
raised (`inl`), in order, and the world left at the end. -/
def nextTimes (obj : VALUE) : Nat → World → List (Exc ⊕ VALUE) × World
  | 0, w => ([], w)
  | k + 1, w =>
    match enumerator_next obj 0 w with
    | Res.ok v w1 => (Sum.inr v :: (nextTimes obj k w1).1, (nextTimes obj k w1).2)
    | Res.raise e w1 => (Sum.inl e :: (nextTimes obj k w1).1, (nextTimes obj k w1).2)

/-- A block that empties and freezes the Array it is handed. -/
def wipeBlock : Block := fun argv h =>
  match argv with
  | [VALUE.ary a] => (VALUE.Qnil, h.set a ⟨[], true⟩)
  | _ => (VALUE.Qnil, h)

/-- A block that empties and freezes the Array it is handed and, on every
invocation, allocates a new Array of its own. -/
def growBlock : Block := fun argv h =>
  match argv with
  | [VALUE.ary a] => (VALUE.Qnil, h.set a ⟨[], true⟩ ++ [⟨[VALUE.Qnil], false⟩])
  | _ => (VALUE.Qnil, h ++ [⟨[VALUE.Qnil], false⟩])
/-- The world a C function leaves behind, whether it returned or raised. -/
def Res.world {α : Type} : Res α → World
  | Res.ok _ w => w
  | Res.raise _ w => w

/-- The specified buffer step of EachCons (spec 4.2): push the new value; if the
length exceeds `n`, drop the oldest. -/
def specConsStep (n : Nat) (buf : List VALUE) (x : VALUE) : List VALUE :=
  if n < (buf ++ [x]).length then (buf ++ [x]).tail else buf ++ [x]

/-- The specified EachCons loop (spec 4.2): after every specified step, hand out
the window when the length has reached `n`.  The windows handed out and the buffer
left at the end. -/
def specConsLoop (n : Nat) : List VALUE → List VALUE → List (List VALUE) × List VALUE
  | buf, [] => ([], buf)
  | buf, x :: xs =>
    if n ≤ (specConsStep n buf x).length then
      (specConsStep n buf x :: (specConsLoop n (specConsStep n buf x) xs).1,
        (specConsLoop n (specConsStep n buf x) xs).2)
    else specConsLoop n (specConsStep n buf x) xs

/-- The operations on the external cursor of one enumerator considered for
reachability: `next`, `rewind`, and `each` with or without a block. -/
inductive CursorOp where
  | next
  | rewind
  | each (blk : Option Block)

/-- The world after one operation on enumerator `obj`. -/
def applyOp (rt : Runtime) (obj : VALUE) : CursorOp → World → World
  | CursorOp.next, w => (enumerator_next obj 0 w).world
  | CursorOp.rewind, w => (enumerator_rewind obj 0 w).world
  | CursorOp.each blk, w => (enumerator_each rt blk obj 0 w).world

/-- The world after a sequence of operations on enumerator `obj`, in order. -/
def applyOps (rt : Runtime) (obj : VALUE) : List CursorOp → World → World
  | [], w => w
  | op :: ops, w => applyOps rt obj ops (applyOp rt obj op w)

/-! ## Theorems -/

theorem sliceLoop_full (n : Nat) (buf : List VALUE) (x : VALUE) (xs : List VALUE)
    (h : (buf ++ [x]).length = n) :
    sliceLoop n buf (x :: xs)
      = ((buf ++ [x]) :: (sliceLoop n [] xs).1, (sliceLoop n [] xs).2) := by
  rw [sliceLoop, if_pos h]

theorem sliceLoop_part (n : Nat) (buf : List VALUE) (x : VALUE) (xs : List VALUE)
    (h : (buf ++ [x]).length ≠ n) :
    sliceLoop n buf (x :: xs) = sliceLoop n (buf ++ [x]) xs := by
  rw [sliceLoop, if_neg h]

theorem rb_ary_push_ok (b : Nat) (buf : List VALUE) (val : VALUE) (w : World)
    (hb : w.arrays[b]? = some ⟨buf, false⟩) :
    rb_ary_push (VALUE.ary b) val w
      = Res.ok (VALUE.ary b) { w with arrays := w.arrays.set b ⟨buf ++ [val], false⟩ } := by
  simp [rb_ary_push, hb]

theorem getElem?_set_self_of_some {α : Type} (l : List α) (b : Nat) (x y : α)
    (hb : l[b]? = some x) : (l.set b y)[b]? = some y := by
  have hlt : b < l.length := by
    rcases List.getElem?_eq_some.1 hb with ⟨h, _⟩
    exact h
  simp [List.getElem?_set, hlt]

theorem each_slice_i_step (blk : Block) (n : Nat) (b : Nat) (buf : List VALUE) (val : VALUE)
    (argv : List VALUE) (w : World) (hb : w.arrays[b]? = some ⟨buf, false⟩) :
    (((buf ++ [val]).length = n) →
      ∃ v b1 w1, each_slice_i blk val (VALUE.ary b, (n : Int)) argv w
          = Res.ok (v, (VALUE.ary b1, (n : Int))) w1
        ∧ w1.enums = w.enums ∧ w1.arrays[b1]? = some ⟨[], false⟩
        ∧ ∃ ev, w1.log = w.log ++ [ev] ∧ ev.group = some (buf ++ [val])) ∧
    (((buf ++ [val]).length ≠ n) →
      ∃ w1, each_slice_i blk val (VALUE.ary b, (n : Int)) argv w
          = Res.ok (VALUE.Qnil, (VALUE.ary b, (n : Int))) w1
        ∧ w1.enums = w.enums ∧ w1.arrays[b]? = some ⟨buf ++ [val], false⟩
        ∧ w1.log = w.log) := by
  have hset := getElem?_set_self_of_some w.arrays b ⟨buf, false⟩ ⟨buf ++ [val], false⟩ hb
  constructor
  · intro hlen
    have hlen2 : RARRAY_LEN { w with arrays := w.arrays.set b ⟨buf ++ [val], false⟩ } (VALUE.ary b)
        = (n : Int) := by
      simp only [RARRAY_LEN, hset]
      simp [← hlen]
    refine ⟨(rb_yield blk (VALUE.ary b) { w with arrays := w.arrays.set b ⟨buf ++ [val], false⟩ }).1,
      (rb_yield blk (VALUE.ary b) { w with arrays := w.arrays.set b ⟨buf ++ [val], false⟩ }).2.arrays.length,
      (rb_ary_new2 n (rb_yield blk (VALUE.ary b)
        { w with arrays := w.arrays.set b ⟨buf ++ [val], false⟩ }).2).2, ?_, ?_, ?_, ?_⟩
    · simp only [each_slice_i, rb_ary_push_ok b buf val w hb, hlen2, if_true]
      rfl
    · simp [rb_ary_new2, rb_yield, rb_yield_values2]
    · simp [rb_ary_new2, rb_yield, rb_yield_values2]
    · refine ⟨Event.yield [VALUE.ary b] (w.arrays.set b ⟨buf ++ [val], false⟩), ?_, ?_⟩
      · simp only [rb_ary_new2, rb_yield, rb_yield_values2]
      · simp [Event.group, hset]
  · intro hlen
    have hlen2 : RARRAY_LEN { w with arrays := w.arrays.set b ⟨buf ++ [val], false⟩ } (VALUE.ary b)
        ≠ (n : Int) := by
      simp only [RARRAY_LEN, hset]
      simp only [Option.map_some', Option.getD_some]
      intro h
      exact hlen (by exact_mod_cast h)
    refine ⟨{ w with arrays := w.arrays.set b ⟨buf ++ [val], false⟩ }, ?_, ?_, ?_, ?_⟩
    · simp only [each_slice_i, rb_ary_push_ok b buf val w hb, hlen2, if_false]
    · rfl
    · exact hset
    · rfl

theorem iterate_each_slice (blk : Block) (n : Nat) :
    ∀ (es : List (List VALUE)) (last : Option VALUE) (b : Nat) (buf : List VALUE) (w : World),
      w.arrays[b]? = some ⟨buf, false⟩ →
      ∃ last1 b1 w1 evs,
        iterate (each_slice_i blk) es last (VALUE.ary b, (n : Int)) w
          = Res.ok (last1, (VALUE.ary b1, (n : Int))) w1
        ∧ w1.enums = w.enums
        ∧ w1.arrays[b1]? = some ⟨(sliceLoop n buf (es.map firstVal)).2, false⟩
        ∧ w1.log = w.log ++ evs
        ∧ evs.map Event.group = (sliceLoop n buf (es.map firstVal)).1.map some := by
  intro es
  induction es with
  | nil =>
    intro last b buf w hb
    exact ⟨last, b, w, [], rfl, rfl, by simpa [sliceLoop] using hb, by simp, by simp [sliceLoop]⟩
  | cons t ts ih =>
    intro last b buf w hb
    have hx : (t :: ts).map firstVal = firstVal t :: ts.map firstVal := rfl
    have hstep := each_slice_i_step blk n b buf (firstVal t) t w hb
    by_cases hlen : (buf ++ [firstVal t]).length = n
    · obtain ⟨v, b1, w1, hrun, henums, hb1, ev, hlog, hgrp⟩ := hstep.1 hlen
      obtain ⟨last2, b2, w2, evs, hrun2, henums2, hb2, hlog2, hgrp2⟩ := ih (some v) b1 [] w1 hb1
      refine ⟨last2, b2, w2, ev :: evs, ?_, ?_, ?_, ?_, ?_⟩
      · simp only [iterate]
        have : each_slice_i blk (t.headD VALUE.Qnil) (VALUE.ary b, (n : Int)) t w
            = Res.ok (v, (VALUE.ary b1, (n : Int))) w1 := hrun
        rw [this]
        exact hrun2
      · rw [henums2, henums]
      · rw [hx, sliceLoop_full n buf _ _ hlen]; exact hb2
      · rw [hlog2, hlog]; simp
      · rw [hx, sliceLoop_full n buf _ _ hlen]; simp [hgrp, hgrp2]
    · obtain ⟨w1, hrun, henums, hb1, hlog⟩ := hstep.2 hlen
      obtain ⟨last2, b2, w2, evs, hrun2, henums2, hb2, hlog2, hgrp2⟩ :=
        ih (some VALUE.Qnil) b (buf ++ [firstVal t]) w1 hb1
      refine ⟨last2, b2, w2, evs, ?_, ?_, ?_, ?_, ?_⟩
      · simp only [iterate]
        have : each_slice_i blk (t.headD VALUE.Qnil) (VALUE.ary b, (n : Int)) t w
            = Res.ok (VALUE.Qnil, (VALUE.ary b, (n : Int))) w1 := hrun
        rw [this]
        exact hrun2
      · rw [henums2, henums]
      · rw [hx, sliceLoop_part n buf _ _ hlen]; exact hb2
      · rw [hlog2, hlog]
      · rw [hx, sliceLoop_part n buf _ _ hlen]; exact hgrp2

theorem sliceLoop_spec (n : Nat) :
    ∀ (xs buf : List VALUE), buf.length < n →
      (sliceLoop n buf xs).1.flatten ++ (sliceLoop n buf xs).2 = buf ++ xs
      ∧ (∀ g ∈ (sliceLoop n buf xs).1, g.length = n)
      ∧ (sliceLoop n buf xs).2.length < n := by
  intro xs
  induction xs with
  | nil =>
    intro buf hbuf
    simp [sliceLoop, hbuf]
  | cons x xs ih =>
    intro buf hbuf
    by_cases hlen : (buf ++ [x]).length = n
    · rw [sliceLoop_full n buf x xs hlen]
      have hn : ([] : List VALUE).length < n := by
        simp only [List.length_nil]; omega
      obtain ⟨h1, h2, h3⟩ := ih [] hn
      refine ⟨?_, ?_, h3⟩
      · simp only [List.flatten_cons, List.append_assoc]
        rw [h1]; simp
      · intro g hg
        rcases List.mem_cons.1 hg with rfl | hg
        · exact hlen
        · exact h2 g hg
    · rw [sliceLoop_part n buf x xs hlen]
      have hn : (buf ++ [x]).length < n := by
        simp only [List.length_append, List.length_singleton] at hlen ⊢
        omega
      obtain ⟨h1, h2, h3⟩ := ih (buf ++ [x]) hn
      refine ⟨?_, h2, h3⟩
      rw [h1]; simp

theorem length_join_of_forall_length (n : Nat) :
    ∀ (L : List (List VALUE)), (∀ g ∈ L, g.length = n) → L.flatten.length = n * L.length := by
  intro L
  induction L with
  | nil => intro _; simp
  | cons g L ih =>
    intro h
    have hg : g.length = n := h g (List.mem_cons_self g L)
    have hL := ih (fun g1 hg1 => h g1 (List.mem_cons_of_mem g hg1))
    simp only [List.flatten_cons, List.length_append, List.length_cons, hg, hL]
    ring

theorem sliceGroups_spec (n : Nat) (hn : 0 < n) (xs : List VALUE) :
    (sliceGroups n xs).flatten = xs
    ∧ (sliceGroups n xs).length = (xs.length + n - 1) / n
    ∧ (∀ g ∈ (sliceGroups n xs).dropLast, g.length = n)
    ∧ (∀ g ∈ sliceGroups n xs, 1 ≤ g.length ∧ g.length ≤ n) := by
  obtain ⟨h1, h2, h3⟩ := sliceLoop_spec n xs [] (by simpa using hn)
  have hcount := length_join_of_forall_length n _ h2
  have htotal : n * (sliceLoop n [] xs).1.length + (sliceLoop n [] xs).2.length = xs.length := by
    have := congrArg List.length h1
    simp only [List.length_append, List.nil_append] at this
    omega
  by_cases hrest : 0 < (sliceLoop n [] xs).2.length
  · simp only [sliceGroups, if_pos hrest]
    refine ⟨?_, ?_, ?_, ?_⟩
    · simpa using h1
    · simp only [List.length_append, List.length_singleton]
      symm
      apply Nat.div_eq_of_lt_le
      · rw [Nat.add_mul, one_mul, Nat.mul_comm]; omega
      · rw [Nat.succ_mul, Nat.add_mul, one_mul, Nat.mul_comm]; omega
    · intro g hg
      rw [List.dropLast_concat] at hg
      exact h2 g hg
    · intro g hg
      rcases List.mem_append.1 hg with hg | hg
      · rw [h2 g hg]; omega
      · rw [List.mem_singleton.1 hg]; omega
  · simp only [sliceGroups, if_neg hrest, List.append_nil]
    have hz : (sliceLoop n [] xs).2.length = 0 := by omega
    refine ⟨?_, ?_, ?_, ?_⟩
    · have hnil : (sliceLoop n [] xs).2 = [] := List.length_eq_zero.1 hz
      rw [hnil] at h1
      simpa using h1
    · symm
      apply Nat.div_eq_of_lt_le
      · rw [Nat.mul_comm]; omega
      · rw [Nat.succ_mul, Nat.mul_comm]; omega
    · intro g hg
      exact h2 g (List.dropLast_subset _ hg)
    · intro g hg
      rw [h2 g hg]; omega

/-- C1: for `n > 0`, `enum_each_slice` with a block returns `nil`, dispatches
`each` once, and then invokes the block exactly with the consecutive groups of the
emitted sequence: their concatenation is the sequence, there are `ceil(len/n)` of
them, all but possibly the last have length `n`, and the last has between `1` and
`n` elements (so an empty source gives no invocation). -/
theorem enum_each_slice_groups (rt : Runtime) (blk : Block) (obj : VALUE) (sel : SEL)
    (nv : VALUE) (n : Nat) (w : World)
    (hconv : rt.NUM2LONG nv = Except.ok (n : Int)) (hpos : 0 < n) :
    ∃ (w1 : World) (evs : List Event) (G : List (List VALUE)),
      enum_each_slice rt (some blk) obj sel nv w = Res.ok VALUE.Qnil w1
      ∧ w1.enums = w.enums
      ∧ w1.log = w.log ++ Event.call obj rt.selEach [] :: evs
      ∧ evs.map Event.group = G.map some
      ∧ G.flatten = (rt.dispatch obj rt.selEach []).emits.map firstVal
      ∧ G.length = (((rt.dispatch obj rt.selEach []).emits.map firstVal).length + n - 1) / n
      ∧ (∀ g ∈ G.dropLast, g.length = n)
      ∧ (∀ g ∈ G, 1 ≤ g.length ∧ g.length ≤ n) := by
  obtain ⟨hG1, hG2, hG3, hG4⟩ :=
    sliceGroups_spec n hpos ((rt.dispatch obj rt.selEach []).emits.map firstVal)
  have hb0 : (w.arrays ++ [(⟨[], false⟩ : RArray)])[w.arrays.length]? = some ⟨[], false⟩ := by
    simp
  obtain ⟨last1, b1, w1, evs, hrun, henums, hb1, hlog, hgrp⟩ :=
    iterate_each_slice blk n (rt.dispatch obj rt.selEach []).emits none w.arrays.length []
      { enums := w.enums, arrays := w.arrays ++ [⟨[], false⟩],
        log := w.log ++ [Event.call obj rt.selEach []] } hb0
  have hnot : ¬ ((n : Int) ≤ 0) := by omega
  have hlenrest : RARRAY_LEN w1 (VALUE.ary b1)
      = ((sliceLoop n [] ((rt.dispatch obj rt.selEach []).emits.map firstVal)).2.length : Int) := by
    simp [RARRAY_LEN, hb1]
  by_cases hrest : 0 < (sliceLoop n [] ((rt.dispatch obj rt.selEach []).emits.map firstVal)).2.length
  · have hgt : RARRAY_LEN w1 (VALUE.ary b1) > 0 := by rw [hlenrest]; exact_mod_cast hrest
    refine ⟨(rb_yield blk (VALUE.ary b1) w1).2, evs ++ [Event.yield [VALUE.ary b1] w1.arrays],
      sliceGroups n ((rt.dispatch obj rt.selEach []).emits.map firstVal), ?_, ?_, ?_, ?_,
      hG1, hG2, hG3, hG4⟩
    · simp only [enum_each_slice, hconv, hnot, if_false, rb_ary_new2, rb_objc_block_call, hrun,
        hgt, if_true]
    · simp [rb_yield, rb_yield_values2, henums]
    · simp [rb_yield, rb_yield_values2, hlog]
    · simp [sliceGroups, if_pos hrest, hgrp, Event.group, hb1]
  · have hgt : ¬ (RARRAY_LEN w1 (VALUE.ary b1) > 0) := by
      rw [hlenrest]; intro h; exact hrest (by exact_mod_cast h)
    refine ⟨w1, evs, sliceGroups n ((rt.dispatch obj rt.selEach []).emits.map firstVal),
      ?_, henums, ?_, ?_, hG1, hG2, hG3, hG4⟩
    · simp only [enum_each_slice, hconv, hnot, if_false, rb_ary_new2, rb_objc_block_call, hrun,
        hgt]
    · simp [hlog]
    · simp [sliceGroups, if_neg hrest, hgrp]

/-- Witness for C1: `(1..10).each_slice(3)` hands the block `[1,2,3]`, `[4,5,6]`,
`[7,8,9]`, `[10]`, and the general statement holds at this input. -/
theorem enum_each_slice_groups_witness :
    (match enum_each_slice (sampleRuntime oneToTen) (some nopBlock) (VALUE.obj 7) 5
        (VALUE.int 3) emptyWorld with
      | Res.ok v w1 => some (v, w1.log.map Event.group)
      | Res.raise _ _ => none)
      = some (VALUE.Qnil,
          [none,
           some [VALUE.int 1, VALUE.int 2, VALUE.int 3],
           some [VALUE.int 4, VALUE.int 5, VALUE.int 6],
           some [VALUE.int 7, VALUE.int 8, VALUE.int 9],
           some [VALUE.int 10]])
    ∧ ∃ (w1 : World) (evs : List Event) (G : List (List VALUE)),
      enum_each_slice (sampleRuntime oneToTen) (some nopBlock) (VALUE.obj 7) 5 (VALUE.int 3)
          emptyWorld = Res.ok VALUE.Qnil w1
      ∧ w1.enums = emptyWorld.enums
      ∧ w1.log = emptyWorld.log ++ Event.call (VALUE.obj 7) (sampleRuntime oneToTen).selEach [] :: evs
      ∧ evs.map Event.group = G.map some
      ∧ G.flatten = ((sampleRuntime oneToTen).dispatch (VALUE.obj 7)
          (sampleRuntime oneToTen).selEach []).emits.map firstVal
      ∧ G.length = ((((sampleRuntime oneToTen).dispatch (VALUE.obj 7)
          (sampleRuntime oneToTen).selEach []).emits.map firstVal).length + 3 - 1) / 3
      ∧ (∀ g ∈ G.dropLast, g.length = 3)
      ∧ (∀ g ∈ G, 1 ≤ g.length ∧ g.length ≤ 3) :=
  ⟨by decide,
   enum_each_slice_groups (sampleRuntime oneToTen) nopBlock (VALUE.obj 7) 5 (VALUE.int 3) 3
     emptyWorld (by simp [sampleRuntime, sampleNUM2LONG]) (by decide)⟩

theorem rb_ary_shift_ok (b : Nat) (buf : List VALUE) (w : World)
    (hb : w.arrays[b]? = some ⟨buf, false⟩) :
    rb_ary_shift (VALUE.ary b) w
      = Res.ok (buf.headD VALUE.Qnil) { w with arrays := w.arrays.set b ⟨buf.tail, false⟩ } := by
  simp [rb_ary_shift, hb]

theorem RARRAY_LEN_of_some (b : Nat) (buf : List VALUE) (fr : Bool) (w : World)
    (hb : w.arrays[b]? = some ⟨buf, fr⟩) : RARRAY_LEN w (VALUE.ary b) = (buf.length : Int) := by
  simp [RARRAY_LEN, hb]

theorem lt_length_of_getElem?_eq_some {α : Type} (l : List α) (b : Nat) (x : α)
    (hb : l[b]? = some x) : b < l.length := by
  rcases List.getElem?_eq_some.1 hb with ⟨h, _⟩
  exact h

/-- After the optional shift of `each_cons_i` the buffer holds the old contents
without the oldest value when it was full, and the old contents otherwise. -/
theorem each_cons_i_shift (n : Nat) (b : Nat) (buf : List VALUE) (w : World)
    (hb : w.arrays[b]? = some ⟨buf, false⟩) :
    ∃ (v : VALUE) (w1 : World),
      (if RARRAY_LEN w (VALUE.ary b) = (n : Int) then rb_ary_shift (VALUE.ary b) w
        else Res.ok VALUE.Qnil w) = Res.ok v w1
      ∧ w1.enums = w.enums ∧ w1.log = w.log
      ∧ w1.arrays[b]? = some ⟨if buf.length = n then buf.tail else buf, false⟩ := by
  rw [RARRAY_LEN_of_some b buf false w hb]
  by_cases h : buf.length = n
  · refine ⟨buf.headD VALUE.Qnil, { w with arrays := w.arrays.set b ⟨buf.tail, false⟩ }, ?_, rfl, rfl, ?_⟩
    · have hc : ((buf.length : Int) = (n : Int)) := by exact_mod_cast h
      rw [if_pos hc, rb_ary_shift_ok b buf w hb]
    · rw [if_pos h]
      exact getElem?_set_self_of_some w.arrays b _ _ hb
  · refine ⟨VALUE.Qnil, w, ?_, rfl, rfl, ?_⟩
    · have hc : ¬ ((buf.length : Int) = (n : Int)) := by
        intro hc; exact h (by exact_mod_cast hc)
      rw [if_neg hc]
    · rw [if_neg h]; exact hb

theorem each_cons_i_step (blk : Block) (n : Nat) (b : Nat) (buf : List VALUE) (val : VALUE)
    (argv : List VALUE) (w : World) (hb : w.arrays[b]? = some ⟨buf, false⟩)
    (hkeep : blk.keeps b) :
    ∃ (v : VALUE) (w1 : World) (evs : List Event),
      each_cons_i blk val (VALUE.ary b, (n : Int)) argv w
        = Res.ok (v, (VALUE.ary b, (n : Int))) w1
      ∧ w1.enums = w.enums
      ∧ w1.arrays[b]? = some ⟨consStep n buf val, false⟩
      ∧ w1.log = w.log ++ evs
      ∧ evs.map Event.group
          = if (consStep n buf val).length = n then [some (consStep n buf val)] else [] := by
  obtain ⟨v0, w1, hshift, henums1, hlog1, hb1⟩ := each_cons_i_shift n b buf w hb
  have hpush := rb_ary_push_ok b _ val w1 hb1
  have hset := getElem?_set_self_of_some w1.arrays b _ (RArray.mk (consStep n buf val) false) hb1
  obtain ⟨w2, hw2⟩ : ∃ w2 : World,
      w2 = World.mk w1.enums (w1.arrays.set b (RArray.mk (consStep n buf val) false)) w1.log :=
    ⟨_, rfl⟩
  have hpush2 : rb_ary_push (VALUE.ary b) val w1 = Res.ok (VALUE.ary b) w2 := by
    rw [hpush, hw2]; rfl
  have hb2 : w2.arrays[b]? = some ⟨consStep n buf val, false⟩ := by rw [hw2]; exact hset
  have henums2 : w2.enums = w.enums := by rw [hw2]; exact henums1
  have hlog2 : w2.log = w.log := by rw [hw2]; exact hlog1
  have hlen2 := RARRAY_LEN_of_some b _ false w2 hb2
  have hblt := lt_length_of_getElem?_eq_some _ b _ hb2
  by_cases hfull : (consStep n buf val).length = n
  · have hc : (((consStep n buf val).length : Int) = (n : Int)) := by exact_mod_cast hfull
    have hne : VALUE.ary b ∉ [VALUE.ary w2.arrays.length] := by
      simp only [List.mem_singleton, VALUE.ary.injEq]
      omega
    have hk := hkeep _ (w2.arrays ++ [RArray.mk (consStep n buf val) false])
      (by rw [List.length_append]; omega) hne
    have hdup : rb_ary_dup (VALUE.ary b) w2
        = (VALUE.ary w2.arrays.length,
            World.mk w2.enums (w2.arrays ++ [RArray.mk (consStep n buf val) false]) w2.log) := by
      simp [rb_ary_dup, rb_ary_new4, hb2]
    have hrun : each_cons_i blk val (VALUE.ary b, (n : Int)) argv w
        = Res.ok ((rb_yield blk (rb_ary_dup (VALUE.ary b) w2).1 (rb_ary_dup (VALUE.ary b) w2).2).1,
            (VALUE.ary b, (n : Int)))
          (rb_yield blk (rb_ary_dup (VALUE.ary b) w2).1 (rb_ary_dup (VALUE.ary b) w2).2).2 := by
      simp only [each_cons_i, hshift, hpush2, hlen2, hc, if_true]
    refine ⟨_, _, [Event.yield [VALUE.ary w2.arrays.length]
        (w2.arrays ++ [RArray.mk (consStep n buf val) false])], hrun, ?_, ?_, ?_, ?_⟩
    · simp [hdup, rb_yield, rb_yield_values2, henums2]
    · simp only [hdup, rb_yield, rb_yield_values2]
      rw [hk, List.getElem?_append_left hblt]
      exact hb2
    · simp [hdup, rb_yield, rb_yield_values2, hlog2]
    · rw [if_pos hfull]
      simp [Event.group]
  · have hc : ¬ (((consStep n buf val).length : Int) = (n : Int)) := by
      intro hc; exact hfull (by exact_mod_cast hc)
    have hrun : each_cons_i blk val (VALUE.ary b, (n : Int)) argv w
        = Res.ok (VALUE.Qnil, (VALUE.ary b, (n : Int))) w2 := by
      simp only [each_cons_i, hshift, hpush2, hlen2, hc, if_false]
    refine ⟨VALUE.Qnil, w2, [], hrun, henums2, hb2, ?_, ?_⟩
    · simp [hlog2]
    · rw [if_neg hfull]; rfl


theorem consLoop_full (n : Nat) (buf : List VALUE) (x : VALUE) (xs : List VALUE)
    (h : (consStep n buf x).length = n) :
    consLoop n buf (x :: xs)
      = (consStep n buf x :: (consLoop n (consStep n buf x) xs).1,
          (consLoop n (consStep n buf x) xs).2) := by
  rw [consLoop, if_pos h]

theorem consLoop_part (n : Nat) (buf : List VALUE) (x : VALUE) (xs : List VALUE)
    (h : (consStep n buf x).length ≠ n) :
    consLoop n buf (x :: xs) = consLoop n (consStep n buf x) xs := by
  rw [consLoop, if_neg h]

theorem iterate_each_cons (blk : Block) (n : Nat) (b : Nat) (hkeep : blk.keeps b) :
    ∀ (es : List (List VALUE)) (last : Option VALUE) (buf : List VALUE) (w : World),
      w.arrays[b]? = some ⟨buf, false⟩ →
      ∃ (last1 : Option VALUE) (w1 : World) (evs : List Event),
        iterate (each_cons_i blk) es last (VALUE.ary b, (n : Int)) w
          = Res.ok (last1, (VALUE.ary b, (n : Int))) w1
        ∧ w1.enums = w.enums
        ∧ w1.arrays[b]? = some ⟨(consLoop n buf (es.map firstVal)).2, false⟩
        ∧ w1.log = w.log ++ evs
        ∧ evs.map Event.group = (consLoop n buf (es.map firstVal)).1.map some := by
  intro es
  induction es with
  | nil =>
    intro last buf w hb
    exact ⟨last, w, [], rfl, rfl, by simpa [consLoop] using hb, by simp, by simp [consLoop]⟩
  | cons t ts ih =>
    intro last buf w hb
    have hx : (t :: ts).map firstVal = firstVal t :: ts.map firstVal := rfl
    obtain ⟨v, w1, evs1, hrun, henums, hb1, hlog, hgrp⟩ :=
      each_cons_i_step blk n b buf (firstVal t) t w hb hkeep
    obtain ⟨last2, w2, evs2, hrun2, henums2, hb2, hlog2, hgrp2⟩ :=
      ih (some v) (consStep n buf (firstVal t)) w1 hb1
    have hit : iterate (each_cons_i blk) (t :: ts) last (VALUE.ary b, (n : Int)) w
        = Res.ok (last2, (VALUE.ary b, (n : Int))) w2 := by
      simp only [iterate]
      have : each_cons_i blk (t.headD VALUE.Qnil) (VALUE.ary b, (n : Int)) t w
          = Res.ok (v, (VALUE.ary b, (n : Int))) w1 := hrun
      rw [this]
      exact hrun2
    refine ⟨last2, w2, evs1 ++ evs2, hit, ?_, ?_, ?_, ?_⟩
    · rw [henums2, henums]
    · by_cases hfull : (consStep n buf (firstVal t)).length = n
      · rw [hx, consLoop_full n buf _ _ hfull]; exact hb2
      · rw [hx, consLoop_part n buf _ _ hfull]; exact hb2
    · rw [hlog2, hlog, List.append_assoc]
    · by_cases hfull : (consStep n buf (firstVal t)).length = n
      · rw [hx, consLoop_full n buf _ _ hfull, List.map_append, hgrp, if_pos hfull, hgrp2]
        rfl
      · rw [hx, consLoop_part n buf _ _ hfull, List.map_append, hgrp, if_neg hfull, hgrp2]
        rfl

theorem allWindows_cons (n : Nat) (hn : 0 < n) (l : List VALUE) (hl : n ≤ l.length) :
    allWindows n l = l.take n :: allWindows n l.tail := by
  cases l with
  | nil => simp at hl; omega
  | cons a l =>
    have h1 : (a :: l).length + 1 - n = (l.length + 1 - n) + 1 := by
      simp only [List.length_cons] at hl ⊢; omega
    simp only [allWindows, h1, List.range_succ_eq_map, List.map_cons, List.map_map, List.tail_cons,
      List.drop_zero]
    congr 1

theorem allWindows_short (n : Nat) (l : List VALUE) (hl : l.length < n) : allWindows n l = [] := by
  have h : l.length + 1 - n = 0 := by omega
  simp [allWindows, h]

theorem consLoop_spec (n : Nat) (hn : 0 < n) :
    ∀ (xs buf : List VALUE),
      (buf.length < n → (consLoop n buf xs).1 = allWindows n (buf ++ xs))
      ∧ (buf.length = n → (consLoop n buf xs).1 = allWindows n (buf.tail ++ xs)) := by
  intro xs
  induction xs with
  | nil =>
    intro buf
    constructor
    · intro h
      rw [List.append_nil, allWindows_short n buf h]; rfl
    · intro h
      rw [List.append_nil, allWindows_short n buf.tail (by rw [List.length_tail]; omega)]; rfl
  | cons x xs ih =>
    intro buf
    constructor
    · intro h
      have hstep : consStep n buf x = buf ++ [x] := by
        simp only [consStep]; rw [if_neg (by omega)]
      by_cases hfull : (consStep n buf x).length = n
      · rw [consLoop_full n buf x xs hfull, (ih (consStep n buf x)).2 hfull, hstep]
        have hlen : (buf ++ [x]).length = n := by rw [← hstep]; exact hfull
        rw [allWindows_cons n hn (buf ++ x :: xs) (by simp at hlen ⊢; omega)]
        have e1 : (buf ++ x :: xs) = (buf ++ [x]) ++ xs := by simp
        rw [e1, List.take_left' hlen]
        cases buf <;> simp
      · have hlt : (consStep n buf x).length < n := by
          rw [hstep] at hfull ⊢
          simp only [List.length_append, List.length_singleton] at hfull ⊢
          omega
        rw [consLoop_part n buf x xs hfull, (ih (consStep n buf x)).1 hlt, hstep]
        simp
    · intro h
      have hstep : consStep n buf x = buf.tail ++ [x] := by
        simp only [consStep]; rw [if_pos h]
      have hfull : (consStep n buf x).length = n := by
        rw [hstep]; simp only [List.length_append, List.length_tail, List.length_singleton]; omega
      rw [consLoop_full n buf x xs hfull, (ih (consStep n buf x)).2 hfull, hstep]
      have hlen : (buf.tail ++ [x]).length = n := by rw [← hstep]; exact hfull
      rw [allWindows_cons n hn (buf.tail ++ x :: xs) (by simp at hlen ⊢; omega)]
      have e1 : (buf.tail ++ x :: xs) = (buf.tail ++ [x]) ++ xs := by simp
      rw [e1, List.take_left' hlen]
      cases buf.tail <;> simp


/-- C2: for `n > 0`, `enum_each_cons` with a block that leaves the private buffer
alone (it may write to every other Array and allocate new ones) returns `nil`, dispatches `each` once, and then invokes the block exactly
`max(0, m - n + 1)` times, the `i`-th time with a window holding
`x_i, ..., x_(i+n-1)`; with fewer than `n` emitted values there is no invocation. -/
theorem enum_each_cons_windows (rt : Runtime) (blk : Block) (obj : VALUE) (sel : SEL)
    (nv : VALUE) (n : Nat) (w : World)
    (hconv : rt.NUM2LONG nv = Except.ok (n : Int)) (hpos : 0 < n)
    (hkeep : blk.keeps w.arrays.length) :
    ∃ (w1 : World) (evs : List Event),
      enum_each_cons rt (some blk) obj sel nv w = Res.ok VALUE.Qnil w1
      ∧ w1.enums = w.enums
      ∧ w1.log = w.log ++ Event.call obj rt.selEach [] :: evs
      ∧ evs.map Event.group
          = (List.range (((rt.dispatch obj rt.selEach []).emits.map firstVal).length + 1 - n)).map
              (fun i => some ((((rt.dispatch obj rt.selEach []).emits.map firstVal).drop i).take n)) := by
  have hb0 : (w.arrays ++ [(⟨[], false⟩ : RArray)])[w.arrays.length]? = some ⟨[], false⟩ := by
    simp
  obtain ⟨last1, w1, evs, hrun, henums, _, hlog, hgrp⟩ :=
    iterate_each_cons blk n w.arrays.length hkeep (rt.dispatch obj rt.selEach []).emits none []
      { enums := w.enums, arrays := w.arrays ++ [⟨[], false⟩],
        log := w.log ++ [Event.call obj rt.selEach []] } hb0
  have hnot : ¬ ((n : Int) ≤ 0) := by omega
  have hspec := (consLoop_spec n hpos ((rt.dispatch obj rt.selEach []).emits.map firstVal) []).1
    (by simpa using hpos)
  refine ⟨w1, evs, ?_, henums, ?_, ?_⟩
  · simp only [enum_each_cons, hconv, hnot, if_false, rb_ary_new2, rb_objc_block_call, hrun]
  · simp [hlog]
  · rw [hgrp, hspec]
    simp [allWindows]

theorem wipeBlock_keeps (b : Nat) : wipeBlock.keeps b := by
  intro argv h _ hmem
  unfold wipeBlock
  split
  · rename_i a
    have hne : a ≠ b := by
      intro hab
      apply hmem
      rw [hab]
      exact List.mem_singleton.2 rfl
    exact List.getElem?_set_ne hne
  · rfl

theorem growBlock_keeps (b : Nat) : growBlock.keeps b := by
  intro argv h hlt hmem
  unfold growBlock
  split
  · rename_i a
    have hne : a ≠ b := by
      intro hab
      apply hmem
      rw [hab]
      exact List.mem_singleton.2 rfl
    show (h.set a ⟨[], true⟩ ++ [⟨[VALUE.Qnil], false⟩])[b]? = h[b]?
    rw [List.getElem?_append_left (by rw [List.length_set]; exact hlt)]
    exact List.getElem?_set_ne hne
  · show (h ++ [⟨[VALUE.Qnil], false⟩])[b]? = h[b]?
    rw [List.getElem?_append_left hlt]

/-- Witness for C2: `(1..10).each_cons(3)` with a block that empties and freezes
every window it is handed and allocates an Array of its own still hands out the eight windows `[1,2,3]` ..
`[8,9,10]`, and the general statement holds at this input. -/
theorem enum_each_cons_windows_witness :
    (match enum_each_cons (sampleRuntime oneToTen) (some growBlock) (VALUE.obj 7) 5
        (VALUE.int 3) emptyWorld with
      | Res.ok v w1 => some (v, w1.log.map Event.group)
      | Res.raise _ _ => none)
      = some (VALUE.Qnil,
          [none,
           some [VALUE.int 1, VALUE.int 2, VALUE.int 3],
           some [VALUE.int 2, VALUE.int 3, VALUE.int 4],
           some [VALUE.int 3, VALUE.int 4, VALUE.int 5],
           some [VALUE.int 4, VALUE.int 5, VALUE.int 6],
           some [VALUE.int 5, VALUE.int 6, VALUE.int 7],
           some [VALUE.int 6, VALUE.int 7, VALUE.int 8],
           some [VALUE.int 7, VALUE.int 8, VALUE.int 9],
           some [VALUE.int 8, VALUE.int 9, VALUE.int 10]])
    ∧ ∃ (w1 : World) (evs : List Event),
      enum_each_cons (sampleRuntime oneToTen) (some growBlock) (VALUE.obj 7) 5 (VALUE.int 3)
          emptyWorld = Res.ok VALUE.Qnil w1
      ∧ w1.enums = emptyWorld.enums
      ∧ w1.log = emptyWorld.log ++ Event.call (VALUE.obj 7) (sampleRuntime oneToTen).selEach [] :: evs
      ∧ evs.map Event.group
          = (List.range ((((sampleRuntime oneToTen).dispatch (VALUE.obj 7)
              (sampleRuntime oneToTen).selEach []).emits.map firstVal).length + 1 - 3)).map
              (fun i => some (((((sampleRuntime oneToTen).dispatch (VALUE.obj 7)
                (sampleRuntime oneToTen).selEach []).emits.map firstVal).drop i).take 3)) :=
  ⟨by decide,
   enum_each_cons_windows (sampleRuntime oneToTen) growBlock (VALUE.obj 7) 5 (VALUE.int 3) 3
     emptyWorld (by simp [sampleRuntime, sampleNUM2LONG]) (by decide)
     (growBlock_keeps emptyWorld.arrays.length)⟩

/-- C3: when the size converts to a `long` that is `<= 0`, `enum_each_slice` and
`enum_each_cons` raise an argument error, with or without a block, and leave the
world as it was: nothing is dispatched, no block is invoked, no enumerator is
allocated. -/
theorem enum_each_slice_cons_invalid_size (rt : Runtime) (blk : Option Block) (obj : VALUE)
    (sel : SEL) (nv : VALUE) (size : Int) (w : World)
    (hconv : rt.NUM2LONG nv = Except.ok size) (hsize : size ≤ 0) :
    enum_each_slice rt blk obj sel nv w = Res.raise (Exc.ArgError "invalid slice size") w
    ∧ enum_each_cons rt blk obj sel nv w = Res.raise (Exc.ArgError "invalid size") w := by
  constructor
  · simp only [enum_each_slice, hconv, hsize, if_true]
  · simp only [enum_each_cons, hconv, hsize, if_true]

/-- Witness for C3: `each_slice(0)` and `each_cons(0)` over `1..10`, with a block. -/
theorem enum_each_slice_cons_invalid_size_witness :
    enum_each_slice (sampleRuntime oneToTen) (some nopBlock) (VALUE.obj 7) 5 (VALUE.int 0)
        emptyWorld = Res.raise (Exc.ArgError "invalid slice size") emptyWorld
    ∧ enum_each_cons (sampleRuntime oneToTen) (some nopBlock) (VALUE.obj 7) 5 (VALUE.int 0)
        emptyWorld = Res.raise (Exc.ArgError "invalid size") emptyWorld :=
  enum_each_slice_cons_invalid_size (sampleRuntime oneToTen) (some nopBlock) (VALUE.obj 7) 5
    (VALUE.int 0) 0 emptyWorld (by simp [sampleRuntime, sampleNUM2LONG]) (by decide)

/-- C7: copying an original without a fiber into a freshly allocated enumerator
succeeds and returns the copy; the copy gets the descriptor of the original and
no fiber, every struct that existed before (the original included) is unchanged,
and the arrays and the log (dispatches, block invocations) are unchanged. -/
theorem enumerator_init_copy_fresh (klass : VALUE) (sel0 sel : SEL) (p0 : Nat) (e0 : enumerator)
    (w : World) (horig : w.enums[p0]? = some e0) (hfib : e0.fib = VALUE.zero) :
    enumerator_init_copy (enumerator_allocate klass sel0 w).1 sel (VALUE.data p0)
        (enumerator_allocate klass sel0 w).2
      = Res.ok (VALUE.data w.enums.length)
          { w with enums := w.enums ++
              [{ obj := e0.obj, sel := e0.sel, args := e0.args,
                 fib := VALUE.zero, dst := VALUE.zero, no_next := VALUE.zero }] } := by
  have hlt : p0 < w.enums.length := lt_length_of_getElem?_eq_some _ _ _ horig
  have h0 : (w.enums ++ [(⟨VALUE.zero, 0, none, VALUE.zero, VALUE.zero, VALUE.zero⟩ : enumerator)])[p0]?
      = some e0 := by
    rw [List.getElem?_append_left hlt]; exact horig
  have h1 : (w.enums ++ [(⟨VALUE.zero, 0, none, VALUE.zero, VALUE.zero, VALUE.zero⟩ : enumerator)])[w.enums.length]?
      = some ⟨VALUE.zero, 0, none, VALUE.zero, VALUE.zero, VALUE.zero⟩ := by
    simp
  simp only [enumerator_init_copy, enumerator_allocate, enumerator_ptr, h0, h1, hfib,
    VALUE.isWordZero, Bool.true_eq_false, if_false, World.store]
  cases hargs : e0.args <;> simp

/-- Witness for C7: duplicating a rewound enumerator over `obj 7` with bound
arguments `[3]`. -/
theorem enumerator_init_copy_fresh_witness :
    enumerator_init_copy
        (enumerator_allocate (VALUE.obj 0) 0
          ⟨[⟨VALUE.obj 7, 5, some [VALUE.int 3], VALUE.zero, VALUE.Qnil, VALUE.Qfalse⟩], [], []⟩).1
        9 (VALUE.data 0)
        (enumerator_allocate (VALUE.obj 0) 0
          ⟨[⟨VALUE.obj 7, 5, some [VALUE.int 3], VALUE.zero, VALUE.Qnil, VALUE.Qfalse⟩], [], []⟩).2
      = Res.ok (VALUE.data 1)
          ⟨[⟨VALUE.obj 7, 5, some [VALUE.int 3], VALUE.zero, VALUE.Qnil, VALUE.Qfalse⟩,
            ⟨VALUE.obj 7, 5, some [VALUE.int 3], VALUE.zero, VALUE.zero, VALUE.zero⟩], [], []⟩ :=
  enumerator_init_copy_fresh (VALUE.obj 0) 0 9 0
    ⟨VALUE.obj 7, 5, some [VALUE.int 3], VALUE.zero, VALUE.Qnil, VALUE.Qfalse⟩
    ⟨[⟨VALUE.obj 7, 5, some [VALUE.int 3], VALUE.zero, VALUE.Qnil, VALUE.Qfalse⟩], [], []⟩
    rfl rfl

/-- C9: on every enumerator, `enumerator_rewind` returns the receiver and changes
nothing but the three cursor fields of its struct, which become `0`, `nil` and
`false`: `obj`, `sel` and `args` keep their values, every other struct, the
arrays and the log (dispatches, block invocations) are unchanged. -/
theorem enumerator_rewind_resets (p : Nat) (e : enumerator) (sel : SEL) (w : World)
    (hp : w.enums[p]? = some e) :
    enumerator_rewind (VALUE.data p) sel w
      = Res.ok (VALUE.data p)
          { w with enums := (w.enums.set p
              { obj := e.obj, sel := e.sel, args := e.args,
                fib := VALUE.zero, dst := VALUE.Qnil, no_next := VALUE.Qfalse }) } := by
  simp only [enumerator_rewind, enumerator_ptr, hp, World.store]

/-- Witness for C9: rewinding an enumerator whose cursor fields are all set. -/
theorem enumerator_rewind_resets_witness :
    enumerator_rewind (VALUE.data 0) 9
        ⟨[⟨VALUE.obj 7, 5, some [VALUE.int 3], VALUE.obj 1, VALUE.obj 2, VALUE.Qtrue⟩], [], []⟩
      = Res.ok (VALUE.data 0)
          ⟨[⟨VALUE.obj 7, 5, some [VALUE.int 3], VALUE.zero, VALUE.Qnil, VALUE.Qfalse⟩], [], []⟩ :=
  enumerator_rewind_resets 0
    ⟨VALUE.obj 7, 5, some [VALUE.int 3], VALUE.obj 1, VALUE.obj 2, VALUE.Qtrue⟩ 9
    ⟨[⟨VALUE.obj 7, 5, some [VALUE.int 3], VALUE.obj 1, VALUE.obj 2, VALUE.Qtrue⟩], [], []⟩ rfl

theorem LONG2WORD_succ (i : Int) : (LONG2WORD i + 1) % 2 ^ 64 = LONG2WORD (i + 1) := by
  simp only [LONG2WORD]
  omega

theorem WORD2LONG_of_emod (x : Int) (y : Nat) (hy : (y : Int) = x % 2 ^ 64)
    (hlo : -(2 : Int) ^ 63 ≤ x) (hhi : x < 2 ^ 63) : WORD2LONG y = x := by
  simp only [WORD2LONG]
  split <;> omega

theorem INT2FIX_LONG2WORD (rt : Runtime) (ht : rt.tagBits ≤ 63) (i : Int)
    (hlo : FIXNUM_MIN rt ≤ i) (hhi : i ≤ FIXNUM_MAX rt) :
    INT2FIX rt (LONG2WORD i) = VALUE.int i := by
  simp only [FIXNUM_MIN, FIXNUM_MAX] at hlo hhi
  have hP : (0 : Int) < 2 ^ rt.tagBits := by positivity
  have hPQ : (2 : Int) ^ (63 - rt.tagBits) * 2 ^ rt.tagBits = 2 ^ 63 := by
    rw [← pow_add]; congr 1; omega
  have hx1 : -(2 : Int) ^ 63 ≤ i * 2 ^ rt.tagBits := by
    have := mul_le_mul_of_nonneg_right hlo (le_of_lt hP)
    rw [neg_mul, hPQ] at this
    exact this
  have hx2 : i * 2 ^ rt.tagBits < 2 ^ 63 := by
    have h1 : i + 1 ≤ 2 ^ (63 - rt.tagBits) := by omega
    have := mul_le_mul_of_nonneg_right h1 (le_of_lt hP)
    rw [hPQ] at this
    nlinarith
  have hy : (((LONG2WORD i * 2 ^ rt.tagBits) % 2 ^ 64 : Nat) : Int)
      = (i * 2 ^ rt.tagBits) % 2 ^ 64 := by
    simp only [LONG2WORD]
    push_cast
    rw [Int.toNat_of_nonneg (Int.emod_nonneg _ (by norm_num))]
    rw [Int.mul_emod, Int.emod_emod_of_dvd _ (dvd_refl _), ← Int.mul_emod]
  simp only [INT2FIX]
  rw [WORD2LONG_of_emod _ _ hy hx1 hx2, Int.mul_ediv_cancel _ (ne_of_gt hP)]


theorem iterate_with_index (rt : Runtime) (ht : rt.tagBits ≤ 63) (blk : Block) :
    ∀ (xs : List VALUE) (last : Option VALUE) (off : Int) (w : World),
      FIXNUM_MIN rt ≤ off → off + xs.length ≤ FIXNUM_MAX rt + 1 →
      ∃ (last1 : Option VALUE) (w1 : World) (evs : List Event),
        iterate (enumerator_with_index_i rt blk) (xs.map (fun x => [x])) last (LONG2WORD off) w
          = Res.ok (last1, LONG2WORD (off + xs.length)) w1
        ∧ w1.enums = w.enums
        ∧ w1.log = w.log ++ evs
        ∧ evs.map Event.args = (indexedFrom off xs).map some := by
  intro xs
  induction xs with
  | nil =>
    intro last off w _ _
    exact ⟨last, w, [], by simp [iterate], rfl, by simp, by simp [indexedFrom]⟩
  | cons x xs ih =>
    intro last off w hlo hhi
    simp only [List.length_cons, Nat.cast_add, Nat.cast_one] at hhi
    have hidx : INT2FIX rt (LONG2WORD off) = VALUE.int off :=
      INT2FIX_LONG2WORD rt ht off hlo (by omega)
    obtain ⟨last2, w2, evs, hrun2, henums2, hlog2, hargs2⟩ :=
      ih (some (rb_yield_values blk x (VALUE.int off) w).1) (off + 1)
        (rb_yield_values blk x (VALUE.int off) w).2 (by omega) (by omega)
    refine ⟨last2, w2, Event.yield [x, VALUE.int off] w.arrays :: evs, ?_, ?_, ?_, ?_⟩
    · simp only [List.map_cons, iterate, enumerator_with_index_i, List.length_singleton,
        le_refl, if_true, hidx, LONG2WORD_succ, List.headD_cons]
      rw [hrun2]
      simp only [List.length_cons, Nat.cast_add, Nat.cast_one]
      rw [show off + 1 + (xs.length : Int) = off + ((xs.length : Int) + 1) by ring]
    · rw [henums2]; rfl
    · rw [hlog2]; simp [rb_yield_values, rb_yield_values2]
    · simp [indexedFrom, Event.args, hargs2]

theorem indexedFrom_getElem? (xs : List VALUE) :
    ∀ (off : Int) (k : Nat) (hk : k < xs.length),
      (indexedFrom off xs)[k]? = some [xs[k], VALUE.int (off + k)] := by
  induction xs with
  | nil => intro off k hk; simp at hk
  | cons x xs ih =>
    intro off k hk
    cases k with
    | zero => simp [indexedFrom]
    | succ k =>
      simp only [List.length_cons, Nat.add_lt_add_iff_right] at hk
      simp only [indexedFrom, List.getElem?_cons_succ, List.getElem_cons_succ]
      rw [ih (off + 1) k hk]
      simp only [Nat.cast_add, Nat.cast_one]
      rw [show off + 1 + (k : Int) = off + ((k : Int) + 1) by ring]

theorem indexedFrom_length (xs : List VALUE) : ∀ (off : Int), (indexedFrom off xs).length = xs.length := by
  induction xs with
  | nil => intro off; rfl
  | cons x xs ih => intro off; simp [indexedFrom, ih]


/-- C10: with a block, `enumerator_with_index` on an enumerator whose routine
emits the single values `x_0 .. x_(m-1)` dispatches that routine once and then
invokes the block exactly `m` times, the `k`-th time with `(x_k, offset + k)`,
where the offset is `0` when omitted or `nil` and the `long` value of the argument
otherwise, provided `offset + m` stays inside the Fixnum range. -/
theorem enumerator_with_index_pairs (rt : Runtime) (ht : rt.tagBits ≤ 63) (blk : Block)
    (p : Nat) (e : enumerator) (sel : SEL) (argv : List VALUE) (off : Int) (xs : List VALUE)
    (w : World) (hp : w.enums[p]? = some e)
    (hoff : (argv = [] ∧ off = 0) ∨ (argv = [VALUE.Qnil] ∧ off = 0)
      ∨ (∃ v, argv = [v] ∧ v ≠ VALUE.Qnil ∧ rt.NUM2LONG v = Except.ok off))
    (hemit : (rt.dispatch e.obj e.sel (e.args.getD [])).emits = xs.map (fun x => [x]))
    (hlo : FIXNUM_MIN rt ≤ off) (hhi : off + xs.length ≤ FIXNUM_MAX rt) :
    ∃ (v : VALUE) (w1 : World) (evs : List Event),
      enumerator_with_index rt (some blk) (VALUE.data p) sel argv w = Res.ok v w1
      ∧ w1.enums = w.enums
      ∧ w1.log = w.log ++ Event.call e.obj e.sel (e.args.getD []) :: evs
      ∧ evs.length = xs.length
      ∧ ∀ (k : Nat) (hk : k < xs.length),
          (evs.map Event.args)[k]? = some (some [xs[k], VALUE.int (off + k)]) := by
  obtain ⟨last1, w1, evs, hrun, henums, hlog, hargs⟩ :=
    iterate_with_index rt ht blk xs none off
      { w with log := w.log ++ [Event.call e.obj e.sel (e.args.getD [])] } hlo (by omega)
  have hlen : evs.length = xs.length := by
    have := congrArg List.length hargs
    simpa [indexedFrom_length] using this
  have hconv : (if argv.headD VALUE.Qnil = VALUE.Qnil then Except.ok 0
      else rt.NUM2LONG (argv.headD VALUE.Qnil)) = Except.ok off ∧ ¬ (1 < argv.length) := by
    rcases hoff with ⟨h1, h2⟩ | ⟨h1, h2⟩ | ⟨v, h1, h2, h3⟩
    · subst h1; subst h2; simp
    · subst h1; subst h2; simp
    · subst h1; simp [h2, h3]
  refine ⟨(rt.dispatch e.obj e.sel (e.args.getD [])).result last1, w1, evs, ?_, henums, ?_,
    hlen, ?_⟩
  · simp only [enumerator_with_index, hconv.2, if_false, hconv.1, enumerator_block_call,
      enumerator_ptr, hp, rb_objc_block_call, hemit, hrun]
  · simp [hlog]
  · intro k hk
    rw [hargs, List.getElem?_map, indexedFrom_getElem? xs off k hk]
    rfl

/-- Witness for C10: `with_index` over `[a, b, c]` pairs the elements with
`0, 1, 2`, `with_index(5)` with `5, 6, 7`, and the general statement holds for
`with_index(5)`. -/
theorem enumerator_with_index_pairs_witness :
    (match enumerator_with_index (sampleRuntime abc) (some nopBlock) (VALUE.data 0) 9 []
        oneEnumWorld with
      | Res.ok _ w1 => some (w1.log.map Event.args)
      | Res.raise _ _ => none)
      = some [none, some [VALUE.obj 1, VALUE.int 0], some [VALUE.obj 2, VALUE.int 1],
          some [VALUE.obj 3, VALUE.int 2]]
    ∧ (match enumerator_with_index (sampleRuntime abc) (some nopBlock) (VALUE.data 0) 9
        [VALUE.int 5] oneEnumWorld with
      | Res.ok _ w1 => some (w1.log.map Event.args)
      | Res.raise _ _ => none)
      = some [none, some [VALUE.obj 1, VALUE.int 5], some [VALUE.obj 2, VALUE.int 6],
          some [VALUE.obj 3, VALUE.int 7]]
    ∧ ∃ (v : VALUE) (w1 : World) (evs : List Event),
      enumerator_with_index (sampleRuntime abc) (some nopBlock) (VALUE.data 0) 9 [VALUE.int 5]
          oneEnumWorld = Res.ok v w1
      ∧ w1.enums = oneEnumWorld.enums
      ∧ w1.log = oneEnumWorld.log ++ Event.call (VALUE.obj 7) 1 ((none : Option (List VALUE)).getD []) :: evs
      ∧ evs.length = [VALUE.obj 1, VALUE.obj 2, VALUE.obj 3].length
      ∧ ∀ (k : Nat) (hk : k < [VALUE.obj 1, VALUE.obj 2, VALUE.obj 3].length),
          (evs.map Event.args)[k]?
            = some (some [[VALUE.obj 1, VALUE.obj 2, VALUE.obj 3][k], VALUE.int (5 + k)]) :=
  ⟨by decide, by decide,
   enumerator_with_index_pairs (sampleRuntime abc) (by decide) nopBlock 0
     ⟨VALUE.obj 7, 1, none, VALUE.zero, VALUE.Qnil, VALUE.Qfalse⟩ 9 [VALUE.int 5] 5
     [VALUE.obj 1, VALUE.obj 2, VALUE.obj 3] oneEnumWorld rfl
     (Or.inr (Or.inr ⟨VALUE.int 5, rfl, by decide, by simp [sampleRuntime, sampleNUM2LONG]⟩))
     rfl (by simp [FIXNUM_MIN, sampleRuntime]) (by simp [FIXNUM_MAX, sampleRuntime])⟩

/-- C4 (the code at the failing input): on a fresh enumerator over a source whose
routine emits `a, b, c`, the first three calls of `next` as compiled all return
`nil`, not `a`, `b`, `c`. -/
theorem enumerator_next_three_calls_return_nil :
    rb_enumeratorize (sampleRuntime abc) (VALUE.obj 7) 1 [] emptyWorld
      = Res.ok (VALUE.data 0) oneEnumWorld
    ∧ ((sampleRuntime abc).dispatch (VALUE.obj 7) 1 []).emits.map firstVal
      = [VALUE.obj 1, VALUE.obj 2, VALUE.obj 3]
    ∧ (nextTimes (VALUE.data 0) 3 oneEnumWorld).1
      = [Sum.inr VALUE.Qnil, Sum.inr VALUE.Qnil, Sum.inr VALUE.Qnil]
    ∧ (nextTimes (VALUE.data 0) 3 oneEnumWorld).1
      ≠ [Sum.inr (VALUE.obj 1), Sum.inr (VALUE.obj 2), Sum.inr (VALUE.obj 3)] := by
  decide

/-- C5 (the code at the failing input): on a fresh enumerator over a source
emitting three values, the fourth call of `next` as compiled returns `nil`; it
does not raise `StopIteration`, and no log entry shows the routine being driven. -/
theorem enumerator_next_fourth_call_does_not_raise :
    rb_enumeratorize (sampleRuntime abc) (VALUE.obj 7) 1 [] emptyWorld
      = Res.ok (VALUE.data 0) oneEnumWorld
    ∧ enumerator_next (VALUE.data 0) 0 (nextTimes (VALUE.data 0) 3 oneEnumWorld).2
      = Res.ok VALUE.Qnil oneEnumWorld
    ∧ (∀ (msg : String) (w : World),
        enumerator_next (VALUE.data 0) 0 (nextTimes (VALUE.data 0) 3 oneEnumWorld).2
          ≠ Res.raise (Exc.StopIteration msg) w) := by
  refine ⟨by decide, by decide, ?_⟩
  intro msg w h
  simp [enumerator_next] at h

/-- C6 (the code at the failing input): after one call of `next` on a fresh
enumerator, `duplicate` still succeeds and returns a new enumerator with the same
descriptor; it does not raise the TypeError for a live execution context. -/
theorem duplicate_after_next_succeeds :
    rb_enumeratorize (sampleRuntime abc) (VALUE.obj 7) 1 [] emptyWorld
      = Res.ok (VALUE.data 0) oneEnumWorld
    ∧ enumerator_next (VALUE.data 0) 0 oneEnumWorld = Res.ok VALUE.Qnil oneEnumWorld
    ∧ duplicate (sampleRuntime abc) (VALUE.data 0) oneEnumWorld
      = Res.ok (VALUE.data 1)
          ⟨[⟨VALUE.obj 7, 1, none, VALUE.zero, VALUE.Qnil, VALUE.Qfalse⟩,
            ⟨VALUE.obj 7, 1, none, VALUE.zero, VALUE.zero, VALUE.zero⟩], [], []⟩ := by
  decide

/-- C8 (the code at the failing input): after two calls of `next`, `rewind`
followed by `next` returns `nil`, not the first value `a` the source emits. -/
theorem enumerator_next_after_rewind_returns_nil :
    rb_enumeratorize (sampleRuntime abc) (VALUE.obj 7) 1 [] emptyWorld
      = Res.ok (VALUE.data 0) oneEnumWorld
    ∧ ((sampleRuntime abc).dispatch (VALUE.obj 7) 1 []).emits.map firstVal
      = [VALUE.obj 1, VALUE.obj 2, VALUE.obj 3]
    ∧ enumerator_rewind (VALUE.data 0) 0 (nextTimes (VALUE.data 0) 2 oneEnumWorld).2
      = Res.ok (VALUE.data 0) oneEnumWorld
    ∧ enumerator_next (VALUE.data 0) 0 oneEnumWorld = Res.ok VALUE.Qnil oneEnumWorld
    ∧ VALUE.Qnil ≠ VALUE.obj 1 := by
  decide
/-- C11: one step of the driven routine under `with_index` and under
`with_object`.  When the step emits exactly one value `v` the block is invoked
with `(v, second)`; when it emits two or more values the block is invoked with
`(a, second)` where `a` is a new Array holding the emitted values in order.
`second` is the current index `INT2FIX(*memo)` for `with_index` and the memo
object for `with_object`. -/
theorem with_index_with_object_step (rt : Runtime) (blk : Block) (last : Option VALUE)
    (m : Nat) (memo : VALUE) (v v1 v2 : VALUE) (rest : List VALUE) (w : World) :
    iterate (enumerator_with_index_i rt blk) [[v]] last m w
      = Res.ok (some (blk [v, INT2FIX rt m] w.arrays).1, (m + 1) % 2 ^ 64)
          { w with arrays := (blk [v, INT2FIX rt m] w.arrays).2,
                   log := w.log ++ [Event.yield [v, INT2FIX rt m] w.arrays] }
    ∧ iterate (enumerator_with_index_i rt blk) [v1 :: v2 :: rest] last m w
      = Res.ok (some (blk [VALUE.ary w.arrays.length, INT2FIX rt m]
                  (w.arrays ++ [⟨v1 :: v2 :: rest, false⟩])).1, (m + 1) % 2 ^ 64)
          { w with arrays := (blk [VALUE.ary w.arrays.length, INT2FIX rt m]
                      (w.arrays ++ [⟨v1 :: v2 :: rest, false⟩])).2,
                   log := w.log ++ [Event.yield [VALUE.ary w.arrays.length, INT2FIX rt m]
                      (w.arrays ++ [⟨v1 :: v2 :: rest, false⟩])] }
    ∧ iterate (enumerator_with_object_i blk) [[v]] last memo w
      = Res.ok (some (blk [v, memo] w.arrays).1, memo)
          { w with arrays := (blk [v, memo] w.arrays).2,
                   log := w.log ++ [Event.yield [v, memo] w.arrays] }
    ∧ iterate (enumerator_with_object_i blk) [v1 :: v2 :: rest] last memo w
      = Res.ok (some (blk [VALUE.ary w.arrays.length, memo]
                  (w.arrays ++ [⟨v1 :: v2 :: rest, false⟩])).1, memo)
          { w with arrays := (blk [VALUE.ary w.arrays.length, memo]
                      (w.arrays ++ [⟨v1 :: v2 :: rest, false⟩])).2,
                   log := w.log ++ [Event.yield [VALUE.ary w.arrays.length, memo]
                      (w.arrays ++ [⟨v1 :: v2 :: rest, false⟩])] } := by
  refine ⟨?_, ?_, ?_, ?_⟩
  · simp [iterate, enumerator_with_index_i, rb_yield_values, rb_yield_values2]
  · simp [iterate, enumerator_with_index_i, rb_yield_values, rb_yield_values2, rb_ary_new4]
  · simp [iterate, enumerator_with_object_i, rb_yield_values, rb_yield_values2]
  · simp [iterate, enumerator_with_object_i, rb_yield_values, rb_yield_values2, rb_ary_new4]
theorem with_object_i_step (blk : Block) (memo : VALUE) (t : List VALUE) (w : World) :
    ∃ (v a : VALUE) (h : List RArray) (w1 : World),
      enumerator_with_object_i blk (firstVal t) memo t w = Res.ok (v, memo) w1
      ∧ w1.enums = w.enums
      ∧ w1.log = w.log ++ [Event.yield [a, memo] h] := by
  by_cases hlen : t.length ≤ 1
  · exact ⟨(rb_yield_values blk (firstVal t) memo w).1, firstVal t, w.arrays,
      (rb_yield_values blk (firstVal t) memo w).2,
      by simp only [enumerator_with_object_i, hlen, if_true], rfl, rfl⟩
  · exact ⟨(rb_yield_values blk (rb_ary_new4 t w).1 memo (rb_ary_new4 t w).2).1,
      VALUE.ary w.arrays.length, w.arrays ++ [RArray.mk t false],
      (rb_yield_values blk (rb_ary_new4 t w).1 memo (rb_ary_new4 t w).2).2,
      by simp only [enumerator_with_object_i, hlen, if_false], rfl, rfl⟩

theorem iterate_with_object (blk : Block) (memo : VALUE) :
    ∀ (es : List (List VALUE)) (last : Option VALUE) (w : World),
      ∃ (last1 : Option VALUE) (w1 : World) (evs : List Event),
        iterate (enumerator_with_object_i blk) es last memo w = Res.ok (last1, memo) w1
        ∧ w1.enums = w.enums
        ∧ w1.log = w.log ++ evs
        ∧ evs.length = es.length
        ∧ ∀ ev ∈ evs, ∃ (a : VALUE) (h : List RArray), ev = Event.yield [a, memo] h := by
  intro es
  induction es with
  | nil =>
    intro last w
    exact ⟨last, w, [], rfl, rfl, by simp, rfl, by simp⟩
  | cons t ts ih =>
    intro last w
    obtain ⟨v, a, h, w1, hrun, henums, hlog⟩ := with_object_i_step blk memo t w
    obtain ⟨last2, w2, evs, hrun2, henums2, hlog2, hlen2, hall2⟩ := ih (some v) w1
    refine ⟨last2, w2, Event.yield [a, memo] h :: evs, ?_, ?_, ?_, ?_, ?_⟩
    · simp only [iterate]
      have : enumerator_with_object_i blk (t.headD VALUE.Qnil) memo t w = Res.ok (v, memo) w1 :=
        hrun
      rw [this]
      exact hrun2
    · rw [henums2, henums]
    · rw [hlog2, hlog]; simp
    · simp [hlen2]
    · intro ev hev
      rcases List.mem_cons.1 hev with rfl | hev
      · exact ⟨a, h, rfl⟩
      · exact hall2 ev hev

/-- C12: with a block, `enumerator_with_object` on any enumerator dispatches the
routine of the descriptor once, invokes the block once per emitted tuple, every
time with the very value `memo` as second argument, and returns `memo` itself,
whatever the block and the routine return. -/
theorem enumerator_with_object_returns_memo (rt : Runtime) (blk : Block) (p : Nat)
    (e : enumerator) (sel : SEL) (memo : VALUE) (w : World) (hp : w.enums[p]? = some e) :
    ∃ (w1 : World) (evs : List Event),
      enumerator_with_object rt (some blk) (VALUE.data p) sel memo w = Res.ok memo w1
      ∧ w1.enums = w.enums
      ∧ w1.log = w.log ++ Event.call e.obj e.sel (e.args.getD []) :: evs
      ∧ evs.length = (rt.dispatch e.obj e.sel (e.args.getD [])).emits.length
      ∧ ∀ ev ∈ evs, ∃ (a : VALUE) (h : List RArray), ev = Event.yield [a, memo] h := by
  obtain ⟨last1, w1, evs, hrun, henums, hlog, hlen, hall⟩ :=
    iterate_with_object blk memo (rt.dispatch e.obj e.sel (e.args.getD [])).emits none
      { w with log := w.log ++ [Event.call e.obj e.sel (e.args.getD [])] }
  refine ⟨w1, evs, ?_, henums, ?_, hlen, hall⟩
  · simp only [enumerator_with_object, enumerator_block_call, enumerator_ptr, hp,
      rb_objc_block_call, hrun]
  · simp [hlog]

/-- Witness for C12: `with_object(memo)` over `[a, b, c]` with an Array as memo and
a block that returns `nil` hands `(a, memo)`, `(b, memo)`, `(c, memo)` to the block
and returns `memo`, although the routine returns its receiver. -/
theorem enumerator_with_object_returns_memo_witness :
    (match enumerator_with_object (sampleRuntime abc) (some nopBlock) (VALUE.data 0) 9
        (VALUE.ary 0) ⟨oneEnumWorld.enums, [⟨[], false⟩], []⟩ with
      | Res.ok v w1 => some (v, w1.log.map Event.args)
      | Res.raise _ _ => none)
      = some (VALUE.ary 0,
          [none, some [VALUE.obj 1, VALUE.ary 0], some [VALUE.obj 2, VALUE.ary 0],
           some [VALUE.obj 3, VALUE.ary 0]])
    ∧ ∃ (w1 : World) (evs : List Event),
      enumerator_with_object (sampleRuntime abc) (some nopBlock) (VALUE.data 0) 9 (VALUE.ary 0)
          ⟨oneEnumWorld.enums, [⟨[], false⟩], []⟩ = Res.ok (VALUE.ary 0) w1
      ∧ w1.enums = oneEnumWorld.enums
      ∧ w1.log = [] ++ Event.call (VALUE.obj 7) 1 ((none : Option (List VALUE)).getD []) :: evs
      ∧ evs.length = ((sampleRuntime abc).dispatch (VALUE.obj 7) 1
          ((none : Option (List VALUE)).getD [])).emits.length
      ∧ ∀ ev ∈ evs, ∃ (a : VALUE) (h : List RArray), ev = Event.yield [a, VALUE.ary 0] h :=
  ⟨by decide,
   enumerator_with_object_returns_memo (sampleRuntime abc) nopBlock 0
     ⟨VALUE.obj 7, 1, none, VALUE.zero, VALUE.Qnil, VALUE.Qfalse⟩ 9 (VALUE.ary 0)
     ⟨oneEnumWorld.enums, [⟨[], false⟩], []⟩ rfl⟩
theorem rb_enumeratorize_fresh (rt : Runtime) (obj : VALUE) (sel : SEL) (argv : List VALUE)
    (w : World) :
    rb_enumeratorize rt obj sel argv w
      = Res.ok (VALUE.data w.enums.length)
          { w with enums := w.enums ++
              [{ obj := obj, sel := sel, args := (if 0 < argv.length then some argv else none),
                 fib := VALUE.zero, dst := VALUE.Qnil, no_next := VALUE.Qfalse }] } := by
  simp [rb_enumeratorize, enumerator_allocate, enumerator_init, enumerator_ptr, World.store]

/-- C13: without a block, `each_slice(n)` and `each_cons(n)` with `n > 0`,
`with_index` with at most one argument and `with_object(memo)` return a newly
allocated enumerator whose struct holds the receiver, the selector the combinator
was called with, and the arguments of the call (`args` stays `0` when there is no
argument), with `fib = 0`, `dst = nil`, `no_next = false`; every other struct, the
arrays and the log (dispatches, block invocations) are unchanged. -/
theorem combinators_without_block_return_enumerator (rt : Runtime) (obj : VALUE) (sel : SEL)
    (nv : VALUE) (size : Int) (argv : List VALUE) (memo : VALUE) (w : World)
    (hconv : rt.NUM2LONG nv = Except.ok size) (hpos : 0 < size) (hargc : argv.length ≤ 1) :
    enum_each_slice rt none obj sel nv w
      = Res.ok (VALUE.data w.enums.length)
          { w with enums := w.enums ++
              [{ obj := obj, sel := sel, args := some [nv],
                 fib := VALUE.zero, dst := VALUE.Qnil, no_next := VALUE.Qfalse }] }
    ∧ enum_each_cons rt none obj sel nv w
      = Res.ok (VALUE.data w.enums.length)
          { w with enums := w.enums ++
              [{ obj := obj, sel := sel, args := some [nv],
                 fib := VALUE.zero, dst := VALUE.Qnil, no_next := VALUE.Qfalse }] }
    ∧ enumerator_with_index rt none obj sel argv w
      = Res.ok (VALUE.data w.enums.length)
          { w with enums := w.enums ++
              [{ obj := obj, sel := sel, args := (if 0 < argv.length then some argv else none),
                 fib := VALUE.zero, dst := VALUE.Qnil, no_next := VALUE.Qfalse }] }
    ∧ enumerator_with_object rt none obj sel memo w
      = Res.ok (VALUE.data w.enums.length)
          { w with enums := w.enums ++
              [{ obj := obj, sel := sel, args := some [memo],
                 fib := VALUE.zero, dst := VALUE.Qnil, no_next := VALUE.Qfalse }] } := by
  have hnot : ¬ size ≤ 0 := by omega
  have hargc2 : ¬ 1 < argv.length := by omega
  refine ⟨?_, ?_, ?_, ?_⟩
  · simp only [enum_each_slice, hconv, hnot, if_false, rb_enumeratorize_fresh]
    simp
  · simp only [enum_each_cons, hconv, hnot, if_false, rb_enumeratorize_fresh]
    simp
  · simp only [enumerator_with_index, hargc2, if_false, rb_enumeratorize_fresh]
  · simp only [enumerator_with_object, rb_enumeratorize_fresh]
    simp

/-- Witness for C13: `each_slice(3)`, `each_cons(3)`, `with_index(5)` and
`with_object(memo)` without a block, called with selector `9` on `obj 7`. -/
theorem combinators_without_block_return_enumerator_witness :
    enum_each_slice (sampleRuntime oneToTen) none (VALUE.obj 7) 9 (VALUE.int 3) emptyWorld
      = Res.ok (VALUE.data 0)
          ⟨[⟨VALUE.obj 7, 9, some [VALUE.int 3], VALUE.zero, VALUE.Qnil, VALUE.Qfalse⟩], [], []⟩
    ∧ enum_each_cons (sampleRuntime oneToTen) none (VALUE.obj 7) 9 (VALUE.int 3) emptyWorld
      = Res.ok (VALUE.data 0)
          ⟨[⟨VALUE.obj 7, 9, some [VALUE.int 3], VALUE.zero, VALUE.Qnil, VALUE.Qfalse⟩], [], []⟩
    ∧ enumerator_with_index (sampleRuntime oneToTen) none (VALUE.obj 7) 9 [VALUE.int 5] emptyWorld
      = Res.ok (VALUE.data 0)
          ⟨[⟨VALUE.obj 7, 9, some [VALUE.int 5], VALUE.zero, VALUE.Qnil, VALUE.Qfalse⟩], [], []⟩
    ∧ enumerator_with_object (sampleRuntime oneToTen) none (VALUE.obj 7) 9 (VALUE.obj 8) emptyWorld
      = Res.ok (VALUE.data 0)
          ⟨[⟨VALUE.obj 7, 9, some [VALUE.obj 8], VALUE.zero, VALUE.Qnil, VALUE.Qfalse⟩], [], []⟩ :=
  combinators_without_block_return_enumerator (sampleRuntime oneToTen) (VALUE.obj 7) 9
    (VALUE.int 3) 3 [VALUE.int 5] (VALUE.obj 8) emptyWorld
    (by simp [sampleRuntime, sampleNUM2LONG]) (by decide) (by decide)
theorem iterate_each (blk : Block) (obj : VALUE) :
    ∀ (es : List (List VALUE)) (last : Option VALUE) (A0 : List RArray) (L : List Event),
      ∃ (last1 : Option VALUE) (A : List RArray) (evs : List Event),
        evs.map Event.args = es.map some
        ∧ ∀ (E : List enumerator),
            iterate (enumerator_each_i blk) es last obj ⟨E, A0, L⟩
              = Res.ok (last1, obj) ⟨E, A, L ++ evs⟩ := by
  intro es
  induction es with
  | nil =>
    intro last A0 L
    exact ⟨last, A0, [], rfl, fun E => by simp [iterate]⟩
  | cons t ts ih =>
    intro last A0 L
    obtain ⟨last2, A, evs, hargs, hrun⟩ :=
      ih (some (blk t A0).1) (blk t A0).2 (L ++ [Event.yield t A0])
    refine ⟨last2, A, Event.yield t A0 :: evs, ?_, ?_⟩
    · simp [Event.args, hargs]
    · intro E
      simp only [iterate, enumerator_each_i, rb_yield_values2]
      rw [hrun E]
      simp

/-- C14: with a block, `enumerator_each` dispatches the routine `sel` of the
descriptor on `obj` of the descriptor with exactly the bound arguments and hands
every emitted tuple unchanged to the block; it leaves all enumerator structs as
they were; and run on the same world with the cursor fields `fib`, `dst`,
`no_next` of the receiver replaced by any values, it returns the same value and
leaves the same arrays and the same log, with those cursor fields still in place. -/
theorem enumerator_each_ignores_cursor (rt : Runtime) (blk : Block) (p : Nat) (e : enumerator)
    (sel : SEL) (w : World) (fib dst no_next : VALUE) (hp : w.enums[p]? = some e) :
    ∃ (v : VALUE) (w1 : World) (evs : List Event),
      enumerator_each rt (some blk) (VALUE.data p) sel w = Res.ok v w1
      ∧ w1.enums = w.enums
      ∧ w1.log = w.log ++ Event.call e.obj e.sel (e.args.getD []) :: evs
      ∧ evs.map Event.args = (rt.dispatch e.obj e.sel (e.args.getD [])).emits.map some
      ∧ enumerator_each rt (some blk) (VALUE.data p) sel
          (w.store p { e with fib := fib, dst := dst, no_next := no_next })
        = Res.ok v (w1.store p { e with fib := fib, dst := dst, no_next := no_next }) := by
  obtain ⟨last1, A, evs, hargs, hrun⟩ :=
    iterate_each blk (VALUE.data p) (rt.dispatch e.obj e.sel (e.args.getD [])).emits none
      w.arrays (w.log ++ [Event.call e.obj e.sel (e.args.getD [])])
  have hp2 : (w.enums.set p { e with fib := fib, dst := dst, no_next := no_next })[p]?
      = some { e with fib := fib, dst := dst, no_next := no_next } :=
    getElem?_set_self_of_some w.enums p e _ hp
  refine ⟨(rt.dispatch e.obj e.sel (e.args.getD [])).result last1,
    ⟨w.enums, A, (w.log ++ [Event.call e.obj e.sel (e.args.getD [])]) ++ evs⟩, evs,
    ?_, rfl, ?_, hargs, ?_⟩
  · simp only [enumerator_each, enumerator_block_call, enumerator_ptr, hp, rb_objc_block_call,
      hrun w.enums]
  · simp
  · simp only [enumerator_each, enumerator_block_call, enumerator_ptr, World.store, hp2,
      rb_objc_block_call, hrun (w.enums.set p { e with fib := fib, dst := dst, no_next := no_next })]

/-- Witness for C14: `each` on an enumerator over `[a, b, c]`, once with a clear
cursor and once with all three cursor fields set, gives the same invocations and
the same result. -/
theorem enumerator_each_ignores_cursor_witness :
    (match enumerator_each (sampleRuntime abc) (some nopBlock) (VALUE.data 0) 9 oneEnumWorld with
      | Res.ok v w1 => some (v, w1.log, w1.enums)
      | Res.raise _ _ => none)
      = some (VALUE.obj 7,
          [Event.call (VALUE.obj 7) 1 [], Event.yield [VALUE.obj 1] [],
           Event.yield [VALUE.obj 2] [], Event.yield [VALUE.obj 3] []],
          oneEnumWorld.enums)
    ∧ ∃ (v : VALUE) (w1 : World) (evs : List Event),
      enumerator_each (sampleRuntime abc) (some nopBlock) (VALUE.data 0) 9 oneEnumWorld
        = Res.ok v w1
      ∧ w1.enums = oneEnumWorld.enums
      ∧ w1.log = oneEnumWorld.log
          ++ Event.call (VALUE.obj 7) 1 ((none : Option (List VALUE)).getD []) :: evs
      ∧ evs.map Event.args = ((sampleRuntime abc).dispatch (VALUE.obj 7) 1
          ((none : Option (List VALUE)).getD [])).emits.map some
      ∧ enumerator_each (sampleRuntime abc) (some nopBlock) (VALUE.data 0) 9
          (oneEnumWorld.store 0
            { (⟨VALUE.obj 7, 1, none, VALUE.zero, VALUE.Qnil, VALUE.Qfalse⟩ : enumerator) with
              fib := VALUE.obj 5, dst := VALUE.obj 6, no_next := VALUE.Qtrue })
        = Res.ok v (w1.store 0
            { (⟨VALUE.obj 7, 1, none, VALUE.zero, VALUE.Qnil, VALUE.Qfalse⟩ : enumerator) with
              fib := VALUE.obj 5, dst := VALUE.obj 6, no_next := VALUE.Qtrue }) :=
  ⟨by decide,
   enumerator_each_ignores_cursor (sampleRuntime abc) nopBlock 0
     ⟨VALUE.obj 7, 1, none, VALUE.zero, VALUE.Qnil, VALUE.Qfalse⟩ 9 oneEnumWorld
     (VALUE.obj 5) (VALUE.obj 6) VALUE.Qtrue rfl⟩
/-- The callback `each_cons_i` computed in closed form on a buffer with contents
`buf`: the buffer becomes `consStep n buf val`, and when that has `n` elements the
block is invoked with a newly allocated Array holding the same elements. -/
theorem each_cons_i_explicit (blk : Block) (n : Nat) (b : Nat) (buf : List VALUE) (val : VALUE)
    (argv : List VALUE) (w : World) (hb : w.arrays[b]? = some ⟨buf, false⟩) :
    each_cons_i blk val (VALUE.ary b, (n : Int)) argv w
      = if (consStep n buf val).length = n then
          Res.ok ((blk [VALUE.ary w.arrays.length]
                (w.arrays.set b (RArray.mk (consStep n buf val) false)
                  ++ [RArray.mk (consStep n buf val) false])).1, (VALUE.ary b, (n : Int)))
            ⟨w.enums,
             (blk [VALUE.ary w.arrays.length]
                (w.arrays.set b (RArray.mk (consStep n buf val) false)
                  ++ [RArray.mk (consStep n buf val) false])).2,
             w.log ++ [Event.yield [VALUE.ary w.arrays.length]
                (w.arrays.set b (RArray.mk (consStep n buf val) false)
                  ++ [RArray.mk (consStep n buf val) false])]⟩
        else
          Res.ok (VALUE.Qnil, (VALUE.ary b, (n : Int)))
            ⟨w.enums, w.arrays.set b (RArray.mk (consStep n buf val) false), w.log⟩ := by
  have hblt : b < w.arrays.length := lt_length_of_getElem?_eq_some _ b _ hb
  have hlen0 := RARRAY_LEN_of_some b buf false w hb
  by_cases hfullbuf : buf.length = n
  · have hc0 : ((buf.length : Int) = (n : Int)) := by exact_mod_cast hfullbuf
    have hstep : consStep n buf val = buf.tail ++ [val] := by
      simp only [consStep]; rw [if_pos hfullbuf]
    have hset1 : (w.arrays.set b (RArray.mk buf.tail false))[b]? = some ⟨buf.tail, false⟩ :=
      getElem?_set_self_of_some w.arrays b _ _ hb
    have hpush := rb_ary_push_ok b buf.tail val
      ⟨w.enums, w.arrays.set b (RArray.mk buf.tail false), w.log⟩ hset1
    have hset2 : ((w.arrays.set b (RArray.mk buf.tail false)).set b
        (RArray.mk (buf.tail ++ [val]) false))[b]? = some ⟨buf.tail ++ [val], false⟩ :=
      getElem?_set_self_of_some _ b _ _ hset1
    have hlen2 := RARRAY_LEN_of_some b _ false
      ⟨w.enums, (w.arrays.set b (RArray.mk buf.tail false)).set b
        (RArray.mk (buf.tail ++ [val]) false), w.log⟩ hset2
    have hset3 : (w.arrays.set b (RArray.mk (buf.tail ++ [val]) false))[b]?
        = some ⟨buf.tail ++ [val], false⟩ :=
      getElem?_set_self_of_some _ b _ _ hb
    have hlen3 := RARRAY_LEN_of_some b _ false
      ⟨w.enums, w.arrays.set b (RArray.mk (buf.tail ++ [val]) false), w.log⟩ hset3
    simp only [each_cons_i, hlen0, hc0, if_true, rb_ary_shift_ok b buf w hb, hpush,
      List.set_set, hlen3, rb_ary_dup, rb_ary_new4, rb_yield, rb_yield_values2, hset3,
      Option.map_some', Option.getD_some, List.length_set, hstep]
    split <;> rename_i h1 <;> split <;> rename_i h2
    · rfl
    · exact absurd (by exact_mod_cast h1) h2
    · exact absurd (by exact_mod_cast h2) h1
    · rfl
  · have hc0 : ¬ ((buf.length : Int) = (n : Int)) := by
      intro hc; exact hfullbuf (by exact_mod_cast hc)
    have hstep : consStep n buf val = buf ++ [val] := by
      simp only [consStep]; rw [if_neg hfullbuf]
    have hpush := rb_ary_push_ok b buf val w hb
    have hset2 : (w.arrays.set b (RArray.mk (buf ++ [val]) false))[b]?
        = some ⟨buf ++ [val], false⟩ :=
      getElem?_set_self_of_some _ b _ _ hb
    have hlen2 := RARRAY_LEN_of_some b _ false
      ⟨w.enums, w.arrays.set b (RArray.mk (buf ++ [val]) false), w.log⟩ hset2
    simp only [each_cons_i, hlen0, hc0, if_false, hpush, hlen2,
      rb_ary_dup, rb_ary_new4, rb_yield, rb_yield_values2, hset2, Option.map_some',
      Option.getD_some, List.length_set, hstep]
    split <;> rename_i h1 <;> split <;> rename_i h2
    · rfl
    · exact absurd (by exact_mod_cast h1) h2
    · exact absurd (by exact_mod_cast h2) h1
    · rfl

theorem iterate_each_cons_addr (blk : Block) (n : Nat) (b : Nat) (hkeep : blk.keeps b) :
    ∀ (es : List (List VALUE)) (last : Option VALUE) (buf : List VALUE) (w : World),
      w.arrays[b]? = some ⟨buf, false⟩ →
      ∃ (last1 : Option VALUE) (w1 : World) (evs : List Event),
        iterate (each_cons_i blk) es last (VALUE.ary b, (n : Int)) w
          = Res.ok (last1, (VALUE.ary b, (n : Int))) w1
        ∧ w1.log = w.log ++ evs
        ∧ ∀ ev ∈ evs, ∃ (d : Nat) (h : List RArray), ev = Event.yield [VALUE.ary d] h ∧ d ≠ b := by
  intro es
  induction es with
  | nil =>
    intro last buf w _
    exact ⟨last, w, [], rfl, by simp, by simp⟩
  | cons t ts ih =>
    intro last buf w hb
    have hblt : b < w.arrays.length := lt_length_of_getElem?_eq_some _ b _ hb
    have hset : (w.arrays.set b (RArray.mk (consStep n buf (firstVal t)) false))[b]?
        = some ⟨consStep n buf (firstVal t), false⟩ :=
      getElem?_set_self_of_some _ b _ _ hb
    have hexp := each_cons_i_explicit blk n b buf (firstVal t) t w hb
    obtain ⟨H, hH⟩ : ∃ H : List RArray,
        H = w.arrays.set b (RArray.mk (consStep n buf (firstVal t)) false)
              ++ [RArray.mk (consStep n buf (firstVal t)) false] := ⟨_, rfl⟩
    rw [← hH] at hexp
    have hHb : H[b]? = some ⟨consStep n buf (firstVal t), false⟩ := by
      rw [hH, List.getElem?_append_left (by rw [List.length_set]; exact hblt)]
      exact hset
    by_cases hfull : (consStep n buf (firstVal t)).length = n
    · rw [if_pos hfull] at hexp
      have hne : VALUE.ary b ∉ [VALUE.ary w.arrays.length] := by
        simp only [List.mem_singleton, VALUE.ary.injEq]; omega
      have hb1 : (blk [VALUE.ary w.arrays.length] H).2[b]?
          = some ⟨consStep n buf (firstVal t), false⟩ := by
        rw [hkeep _ _ (lt_length_of_getElem?_eq_some _ b _ hHb) hne]; exact hHb
      obtain ⟨last2, w2, evs, hrun2, hlog2, hall2⟩ :=
        ih (some (blk [VALUE.ary w.arrays.length] H).1) (consStep n buf (firstVal t))
          ⟨w.enums, (blk [VALUE.ary w.arrays.length] H).2,
            w.log ++ [Event.yield [VALUE.ary w.arrays.length] H]⟩ hb1
      refine ⟨last2, w2, Event.yield [VALUE.ary w.arrays.length] H :: evs, ?_, ?_, ?_⟩
      · simp only [iterate]
        have : each_cons_i blk (t.headD VALUE.Qnil) (VALUE.ary b, (n : Int)) t w = _ := hexp
        rw [this]
        exact hrun2
      · rw [hlog2]; simp
      · intro ev hev
        rcases List.mem_cons.1 hev with rfl | hev
        · exact ⟨w.arrays.length, H, rfl, by omega⟩
        · exact hall2 ev hev
    · rw [if_neg hfull] at hexp
      obtain ⟨last2, w2, evs, hrun2, hlog2, hall2⟩ :=
        ih (some VALUE.Qnil) (consStep n buf (firstVal t))
          ⟨w.enums, w.arrays.set b (RArray.mk (consStep n buf (firstVal t)) false), w.log⟩ hset
      refine ⟨last2, w2, evs, ?_, hlog2, hall2⟩
      simp only [iterate]
      have : each_cons_i blk (t.headD VALUE.Qnil) (VALUE.ary b, (n : Int)) t w = _ := hexp
      rw [this]
      exact hrun2

theorem iterate_each_cons_pure (blk : Block) (n : Nat) (b : Nat)
    (hpure : ∀ (argv : List VALUE) (h : List RArray), (blk argv h).2 = h) :
    ∀ (es : List (List VALUE)) (last : Option VALUE) (buf : List VALUE) (w : World),
      w.arrays[b]? = some ⟨buf, false⟩ →
      ∃ (last1 : Option VALUE) (w1 : World) (evs : List Event),
        iterate (each_cons_i blk) es last (VALUE.ary b, (n : Int)) w
          = Res.ok (last1, (VALUE.ary b, (n : Int))) w1
        ∧ w1.log = w.log ++ evs
        ∧ w.arrays.length ≤ w1.arrays.length
        ∧ (∀ (a : Nat), a ≠ b → a < w.arrays.length → w1.arrays[a]? = w.arrays[a]?)
        ∧ ∀ ev ∈ evs, ∃ (d : Nat) (h : List RArray),
            ev = Event.yield [VALUE.ary d] h ∧ d ≠ b ∧ w1.arrays[d]? = h[d]? := by
  intro es
  induction es with
  | nil =>
    intro last buf w _
    exact ⟨last, w, [], rfl, by simp, le_refl _, fun _ _ _ => rfl, by simp⟩
  | cons t ts ih =>
    intro last buf w hb
    have hblt : b < w.arrays.length := lt_length_of_getElem?_eq_some _ b _ hb
    have hset : (w.arrays.set b (RArray.mk (consStep n buf (firstVal t)) false))[b]?
        = some ⟨consStep n buf (firstVal t), false⟩ :=
      getElem?_set_self_of_some _ b _ _ hb
    have hexp := each_cons_i_explicit blk n b buf (firstVal t) t w hb
    obtain ⟨H, hH⟩ : ∃ H : List RArray,
        H = w.arrays.set b (RArray.mk (consStep n buf (firstVal t)) false)
              ++ [RArray.mk (consStep n buf (firstVal t)) false] := ⟨_, rfl⟩
    rw [← hH] at hexp
    have hHlen : H.length = w.arrays.length + 1 := by
      rw [hH]; simp
    have hHb : H[b]? = some ⟨consStep n buf (firstVal t), false⟩ := by
      rw [hH, List.getElem?_append_left (by rw [List.length_set]; exact hblt)]
      exact hset
    have hHframe : ∀ (a : Nat), a ≠ b → a < w.arrays.length → H[a]? = w.arrays[a]? := by
      intro a hab halt
      rw [hH, List.getElem?_append_left (by rw [List.length_set]; exact halt),
        List.getElem?_set_ne (Ne.symm hab)]
    by_cases hfull : (consStep n buf (firstVal t)).length = n
    · rw [if_pos hfull, hpure] at hexp
      obtain ⟨last2, w2, evs, hrun2, hlog2, hmono2, hframe2, hall2⟩ :=
        ih (some (blk [VALUE.ary w.arrays.length] H).1) (consStep n buf (firstVal t))
          ⟨w.enums, H, w.log ++ [Event.yield [VALUE.ary w.arrays.length] H]⟩ hHb
      simp only [hHlen] at hmono2 hframe2
      refine ⟨last2, w2, Event.yield [VALUE.ary w.arrays.length] H :: evs, ?_, ?_, ?_, ?_, ?_⟩
      · simp only [iterate]
        have : each_cons_i blk (t.headD VALUE.Qnil) (VALUE.ary b, (n : Int)) t w = _ := hexp
        rw [this]
        exact hrun2
      · rw [hlog2]; simp
      · omega
      · intro a hab halt
        rw [hframe2 a hab (by omega), hHframe a hab halt]
      · intro ev hev
        rcases List.mem_cons.1 hev with rfl | hev
        · exact ⟨w.arrays.length, H, rfl, by omega, hframe2 _ (by omega) (by omega)⟩
        · exact hall2 ev hev
    · rw [if_neg hfull] at hexp
      obtain ⟨last2, w2, evs, hrun2, hlog2, hmono2, hframe2, hall2⟩ :=
        ih (some VALUE.Qnil) (consStep n buf (firstVal t))
          ⟨w.enums, w.arrays.set b (RArray.mk (consStep n buf (firstVal t)) false), w.log⟩ hset
      simp only [List.length_set] at hmono2 hframe2
      refine ⟨last2, w2, evs, ?_, hlog2, hmono2, ?_, hall2⟩
      · simp only [iterate]
        have : each_cons_i blk (t.headD VALUE.Qnil) (VALUE.ary b, (n : Int)) t w = _ := hexp
        rw [this]
        exact hrun2
      · intro a hab halt
        rw [hframe2 a hab halt, List.getElem?_set_ne (Ne.symm hab)]

theorem quiet_keeps (blk : Block)
    (hquiet : ∀ (argv : List VALUE) (h : List RArray), (blk argv h).2 = h) (b : Nat) :
    blk.keeps b := by
  intro argv h _ _
  rw [hquiet]

theorem enum_each_cons_run (rt : Runtime) (blk : Block) (obj : VALUE) (sel : SEL)
    (nv : VALUE) (n : Nat) (w : World)
    (hconv : rt.NUM2LONG nv = Except.ok (n : Int)) (hpos : 0 < n)
    (last1 : Option VALUE) (w1 : World)
    (hrun : iterate (each_cons_i blk) (rt.dispatch obj rt.selEach []).emits none
        (VALUE.ary w.arrays.length, (n : Int))
        ⟨w.enums, w.arrays ++ [⟨[], false⟩], w.log ++ [Event.call obj rt.selEach []]⟩
      = Res.ok (last1, (VALUE.ary w.arrays.length, (n : Int))) w1) :
    enum_each_cons rt (some blk) obj sel nv w = Res.ok VALUE.Qnil w1 := by
  have hnot : ¬ ((n : Int) ≤ 0) := by omega
  simp only [enum_each_cons, hconv, hnot, if_false, rb_ary_new2, rb_objc_block_call, hrun]

/-- C15: the windows of `each_cons` are copies.  For `n > 0`, the buffer is the
Array `enum_each_cons` allocates on entry (address `w.arrays.length`).  Every
window handed to the block is an Array other than the buffer.  For a block that
writes to windows (to any Array but the buffer it is never handed, allocating
freely) the windows
have the same contents, in the same order, as for a block that changes no Array.
And with a block that changes no Array, every window handed out still has at the
end of the traversal the contents it was handed out with: the later shifts and
pushes on the buffer did not change it. -/
theorem enum_each_cons_windows_are_copies (rt : Runtime) (blk quiet : Block) (obj : VALUE)
    (sel : SEL) (nv : VALUE) (n : Nat) (w : World)
    (hconv : rt.NUM2LONG nv = Except.ok (n : Int)) (hpos : 0 < n)
    (hkeep : blk.keeps w.arrays.length)
    (hquiet : ∀ (argv : List VALUE) (h : List RArray), (quiet argv h).2 = h) :
    ∃ (w1 : World) (evs : List Event) (w2 : World) (evs0 : List Event),
      enum_each_cons rt (some blk) obj sel nv w = Res.ok VALUE.Qnil w1
      ∧ w1.log = w.log ++ Event.call obj rt.selEach [] :: evs
      ∧ enum_each_cons rt (some quiet) obj sel nv w = Res.ok VALUE.Qnil w2
      ∧ w2.log = w.log ++ Event.call obj rt.selEach [] :: evs0
      ∧ evs.map Event.group = evs0.map Event.group
      ∧ evs0.map Event.group
          = (List.range (((rt.dispatch obj rt.selEach []).emits.map firstVal).length + 1 - n)).map
              (fun i => some ((((rt.dispatch obj rt.selEach []).emits.map firstVal).drop i).take n))
      ∧ (∀ ev ∈ evs, ∃ (d : Nat) (h : List RArray),
          ev = Event.yield [VALUE.ary d] h ∧ d ≠ w.arrays.length)
      ∧ (∀ ev ∈ evs0, ∃ (d : Nat) (h : List RArray),
          ev = Event.yield [VALUE.ary d] h ∧ d ≠ w.arrays.length ∧ w2.arrays[d]? = h[d]?) := by
  have hb0 : (w.arrays ++ [(⟨[], false⟩ : RArray)])[w.arrays.length]? = some ⟨[], false⟩ := by
    simp
  have hspec := (consLoop_spec n hpos ((rt.dispatch obj rt.selEach []).emits.map firstVal) []).1
    (by simpa using hpos)
  -- the run with the writing block
  obtain ⟨lastA, wA, evsA, hrunA, _, _, hlogA, hgrpA⟩ :=
    iterate_each_cons blk n w.arrays.length hkeep (rt.dispatch obj rt.selEach []).emits none []
      ⟨w.enums, w.arrays ++ [⟨[], false⟩], w.log ++ [Event.call obj rt.selEach []]⟩ hb0
  obtain ⟨lastA2, wA2, evsA2, hrunA2, hlogA2, haddrA⟩ :=
    iterate_each_cons_addr blk n w.arrays.length hkeep (rt.dispatch obj rt.selEach []).emits
      none [] ⟨w.enums, w.arrays ++ [⟨[], false⟩], w.log ++ [Event.call obj rt.selEach []]⟩ hb0
  have hA : wA2 = wA ∧ evsA2 = evsA := by
    rw [hrunA] at hrunA2
    have hw : wA = wA2 := by injection hrunA2
    subst hw
    rw [hlogA] at hlogA2
    exact ⟨rfl, (List.append_cancel_left hlogA2).symm⟩
  -- the run with the quiet block
  obtain ⟨lastB, wB, evsB, hrunB, _, _, hlogB, hgrpB⟩ :=
    iterate_each_cons quiet n w.arrays.length (quiet_keeps quiet hquiet _)
      (rt.dispatch obj rt.selEach []).emits none []
      ⟨w.enums, w.arrays ++ [⟨[], false⟩], w.log ++ [Event.call obj rt.selEach []]⟩ hb0
  obtain ⟨lastB2, wB2, evsB2, hrunB2, hlogB2, _, _, hkeptB⟩ :=
    iterate_each_cons_pure quiet n w.arrays.length hquiet (rt.dispatch obj rt.selEach []).emits
      none [] ⟨w.enums, w.arrays ++ [⟨[], false⟩], w.log ++ [Event.call obj rt.selEach []]⟩ hb0
  have hB : wB2 = wB ∧ evsB2 = evsB := by
    rw [hrunB] at hrunB2
    have hw : wB = wB2 := by injection hrunB2
    subst hw
    rw [hlogB] at hlogB2
    exact ⟨rfl, (List.append_cancel_left hlogB2).symm⟩
  refine ⟨wA, evsA, wB, evsB, enum_each_cons_run rt blk obj sel nv n w hconv hpos lastA wA hrunA,
    ?_, enum_each_cons_run rt quiet obj sel nv n w hconv hpos lastB wB hrunB, ?_, ?_, ?_, ?_, ?_⟩
  · simp [hlogA]
  · simp [hlogB]
  · rw [hgrpA, hgrpB]
  · rw [hgrpB, hspec]
    simp [allWindows]
  · rw [← hA.2]; exact haddrA
  · rw [← hB.2, ← hB.1]; exact hkeptB

/-- Witness for C15: `(1..10).each_cons(3)` with a block that empties and freezes
every window and allocates an Array of its own, against a block that does nothing. -/
theorem enum_each_cons_windows_are_copies_witness :
    ∃ (w1 : World) (evs : List Event) (w2 : World) (evs0 : List Event),
      enum_each_cons (sampleRuntime oneToTen) (some growBlock) (VALUE.obj 7) 5 (VALUE.int 3)
          emptyWorld = Res.ok VALUE.Qnil w1
      ∧ w1.log = emptyWorld.log ++ Event.call (VALUE.obj 7) (sampleRuntime oneToTen).selEach [] :: evs
      ∧ enum_each_cons (sampleRuntime oneToTen) (some nopBlock) (VALUE.obj 7) 5 (VALUE.int 3)
          emptyWorld = Res.ok VALUE.Qnil w2
      ∧ w2.log = emptyWorld.log ++ Event.call (VALUE.obj 7) (sampleRuntime oneToTen).selEach [] :: evs0
      ∧ evs.map Event.group = evs0.map Event.group
      ∧ evs0.map Event.group
          = (List.range ((((sampleRuntime oneToTen).dispatch (VALUE.obj 7)
              (sampleRuntime oneToTen).selEach []).emits.map firstVal).length + 1 - 3)).map
              (fun i => some (((((sampleRuntime oneToTen).dispatch (VALUE.obj 7)
                (sampleRuntime oneToTen).selEach []).emits.map firstVal).drop i).take 3))
      ∧ (∀ ev ∈ evs, ∃ (d : Nat) (h : List RArray),
          ev = Event.yield [VALUE.ary d] h ∧ d ≠ emptyWorld.arrays.length)
      ∧ (∀ ev ∈ evs0, ∃ (d : Nat) (h : List RArray),
          ev = Event.yield [VALUE.ary d] h ∧ d ≠ emptyWorld.arrays.length
            ∧ w2.arrays[d]? = h[d]?) :=
  enum_each_cons_windows_are_copies (sampleRuntime oneToTen) growBlock nopBlock (VALUE.obj 7) 5
    (VALUE.int 3) 3 emptyWorld (by simp [sampleRuntime, sampleNUM2LONG]) (by decide)
    (growBlock_keeps emptyWorld.arrays.length) (fun _ _ => rfl)
theorem consStep_eq_spec (n : Nat) (hpos : 0 < n) (buf : List VALUE) (x : VALUE)
    (hbuf : buf.length ≤ n) :
    consStep n buf x = specConsStep n buf x ∧ (consStep n buf x).length ≤ n := by
  by_cases hfull : buf.length = n
  · have hne : buf ≠ [] := by
      intro h; rw [h] at hfull; simp at hfull; omega
    have h1 : n < (buf ++ [x]).length := by simp; omega
    constructor
    · simp only [consStep, specConsStep, if_pos hfull, if_pos h1]
      rw [List.tail_append_of_ne_nil hne]
    · simp only [consStep, if_pos hfull, List.length_append, List.length_tail,
        List.length_singleton]
      omega
  · have h1 : ¬ n < (buf ++ [x]).length := by simp; omega
    constructor
    · simp only [consStep, specConsStep, if_neg hfull, if_neg h1]
    · simp only [consStep, if_neg hfull, List.length_append, List.length_singleton]
      omega

theorem consLoop_eq_spec (n : Nat) (hpos : 0 < n) :
    ∀ (xs buf : List VALUE), buf.length ≤ n →
      consLoop n buf xs = specConsLoop n buf xs ∧ (consLoop n buf xs).2.length ≤ n := by
  intro xs
  induction xs with
  | nil =>
    intro buf hbuf
    exact ⟨rfl, hbuf⟩
  | cons x xs ih =>
    intro buf hbuf
    obtain ⟨heq, hle⟩ := consStep_eq_spec n hpos buf x hbuf
    obtain ⟨ih1, ih2⟩ := ih (consStep n buf x) hle
    by_cases hfull : (consStep n buf x).length = n
    · have hs : n ≤ (specConsStep n buf x).length := by rw [← heq]; omega
      constructor
      · rw [consLoop_full n buf x xs hfull, specConsLoop, if_pos hs, ← heq, ih1]
      · rw [consLoop_full n buf x xs hfull]; exact ih2
    · have hs : ¬ n ≤ (specConsStep n buf x).length := by rw [← heq]; omega
      constructor
      · rw [consLoop_part n buf x xs hfull, specConsLoop, if_neg hs, ← heq, ih1]
      · rw [consLoop_part n buf x xs hfull]; exact ih2

/-- C17: for `n > 0`, starting from an empty buffer, after every number `k` of
steps of `each_cons_i` (shift when full, push, yield when the length is `n`) the
windows handed out so far and the buffer contents are those of the specified loop
(push, drop the oldest when the length exceeds `n`, hand out when the length has
reached `n`); the buffer then has at most `n` elements, and after the optional
shift of the next step it has fewer than `n`, so that the push brings it to at
most `n`. -/
theorem each_cons_i_refines_spec (blk : Block) (n : Nat) (b : Nat) (hpos : 0 < n)
    (hkeep : blk.keeps b) (es : List (List VALUE)) (last : Option VALUE) (w : World)
    (hb : w.arrays[b]? = some ⟨[], false⟩) (k : Nat) :
    ∃ (last1 : Option VALUE) (w1 : World) (evs : List Event) (v : VALUE) (w2 : World),
      iterate (each_cons_i blk) (es.take k) last (VALUE.ary b, (n : Int)) w
        = Res.ok (last1, (VALUE.ary b, (n : Int))) w1
      ∧ w1.log = w.log ++ evs
      ∧ evs.map Event.group = (specConsLoop n [] ((es.take k).map firstVal)).1.map some
      ∧ w1.arrays[b]? = some ⟨(specConsLoop n [] ((es.take k).map firstVal)).2, false⟩
      ∧ RARRAY_LEN w1 (VALUE.ary b) ≤ (n : Int)
      ∧ (if RARRAY_LEN w1 (VALUE.ary b) = (n : Int) then rb_ary_shift (VALUE.ary b) w1
          else Res.ok VALUE.Qnil w1) = Res.ok v w2
      ∧ RARRAY_LEN w2 (VALUE.ary b) < (n : Int) := by
  obtain ⟨last1, w1, evs, hrun, _, hb1, hlog, hgrp⟩ :=
    iterate_each_cons blk n b hkeep (es.take k) last [] w hb
  obtain ⟨heq, hle⟩ := consLoop_eq_spec n hpos ((es.take k).map firstVal) [] (by simp)
  obtain ⟨v, w2, hshift, _, _, hb2⟩ :=
    each_cons_i_shift n b (consLoop n [] ((es.take k).map firstVal)).2 w1 hb1
  refine ⟨last1, w1, evs, v, w2, hrun, hlog, ?_, ?_, ?_, hshift, ?_⟩
  · rw [hgrp, heq]
  · rw [hb1, heq]
  · rw [RARRAY_LEN_of_some b _ false w1 hb1]
    exact_mod_cast hle
  · rw [RARRAY_LEN_of_some b _ false w2 hb2]
    have : (if (consLoop n [] ((es.take k).map firstVal)).2.length = n
        then (consLoop n [] ((es.take k).map firstVal)).2.tail
        else (consLoop n [] ((es.take k).map firstVal)).2).length < n := by
      split
      · rw [List.length_tail]; omega
      · omega
    exact_mod_cast this

/-- Witness for C17: `each_cons(3)` over `1..10` after 5 steps, with a block that
empties every window and allocates an Array of its own: the windows
`[1,2,3]`, `[2,3,4]`, `[3,4,5]` were handed out and the buffer holds `[3,4,5]`,
in the code and in the specified loop alike. -/
theorem each_cons_i_refines_spec_witness :
    specConsLoop 3 [] ((oneToTen.take 5).map firstVal)
      = ([[VALUE.int 1, VALUE.int 2, VALUE.int 3], [VALUE.int 2, VALUE.int 3, VALUE.int 4],
          [VALUE.int 3, VALUE.int 4, VALUE.int 5]],
         [VALUE.int 3, VALUE.int 4, VALUE.int 5])
    ∧ ∃ (last1 : Option VALUE) (w1 : World) (evs : List Event) (v : VALUE) (w2 : World),
      iterate (each_cons_i growBlock) (oneToTen.take 5) none (VALUE.ary 0, ((3 : Nat) : Int))
          ⟨[], [⟨[], false⟩], []⟩
        = Res.ok (last1, (VALUE.ary 0, ((3 : Nat) : Int))) w1
      ∧ w1.log = [] ++ evs
      ∧ evs.map Event.group = (specConsLoop 3 [] ((oneToTen.take 5).map firstVal)).1.map some
      ∧ w1.arrays[0]? = some ⟨(specConsLoop 3 [] ((oneToTen.take 5).map firstVal)).2, false⟩
      ∧ RARRAY_LEN w1 (VALUE.ary 0) ≤ ((3 : Nat) : Int)
      ∧ (if RARRAY_LEN w1 (VALUE.ary 0) = ((3 : Nat) : Int) then rb_ary_shift (VALUE.ary 0) w1
          else Res.ok VALUE.Qnil w1) = Res.ok v w2
      ∧ RARRAY_LEN w2 (VALUE.ary 0) < ((3 : Nat) : Int) :=
  ⟨by decide,
   each_cons_i_refines_spec growBlock 3 0 (by decide) (growBlock_keeps 0) oneToTen none
     ⟨[], [⟨[], false⟩], []⟩ rfl 5⟩
/-- C18: for an original that is an enumerator, `enumerator_init_copy` raises the
TypeError "can't copy execution context" exactly when the `fib` field of the
original is a non-zero word (neither the never-written word `0` nor `Qfalse`,
which is the word `0` too), and whenever it raises, the world (every field of the
copy and of the original included) is as it was. -/
theorem enumerator_init_copy_fails_iff_fib (obj : VALUE) (sel : SEL) (p0 : Nat) (e0 : enumerator)
    (w : World) (horig : w.enums[p0]? = some e0) :
    ((∃ w1, enumerator_init_copy obj sel (VALUE.data p0) w
        = Res.raise (Exc.TypeError "can\x27t copy execution context") w1)
      ↔ VALUE.isWordZero e0.fib = false)
    ∧ (VALUE.isWordZero e0.fib = false ↔ (e0.fib ≠ VALUE.zero ∧ e0.fib ≠ VALUE.Qfalse))
    ∧ (VALUE.isWordZero e0.fib = false →
        enumerator_init_copy obj sel (VALUE.data p0) w
          = Res.raise (Exc.TypeError "can\x27t copy execution context") w)
    ∧ (∀ (e : Exc) (w1 : World),
        enumerator_init_copy obj sel (VALUE.data p0) w = Res.raise e w1 → w1 = w) := by
  have hword : VALUE.isWordZero e0.fib = false ↔ (e0.fib ≠ VALUE.zero ∧ e0.fib ≠ VALUE.Qfalse) := by
    cases e0.fib <;> simp [VALUE.isWordZero]
  by_cases hfib : VALUE.isWordZero e0.fib = false
  · have hrun : enumerator_init_copy obj sel (VALUE.data p0) w
        = Res.raise (Exc.TypeError "can\x27t copy execution context") w := by
      simp only [enumerator_init_copy, enumerator_ptr, horig, hfib, if_true]
    refine ⟨⟨fun _ => hfib, fun _ => ⟨w, hrun⟩⟩, hword, fun _ => hrun, ?_⟩
    intro e w1 h1
    rw [hrun] at h1
    injection h1 with _ hw
    exact hw.symm
  · have hrun : enumerator_init_copy obj sel (VALUE.data p0) w
        = match enumerator_ptr obj w with
          | Except.error e => Res.raise e w
          | Except.ok (p1, ptr1) =>
            Res.ok obj (w.store p1
              { ptr1 with
                obj := e0.obj, sel := e0.sel,
                args := if e0.args ≠ none then e0.args else ptr1.args,
                fib := VALUE.zero }) := by
      have htrue : VALUE.isWordZero e0.fib = true := by
        cases hz : VALUE.isWordZero e0.fib
        · exact absurd hz hfib
        · rfl
      simp only [enumerator_init_copy, enumerator_ptr, horig, htrue, Bool.true_eq_false, if_false]
    refine ⟨⟨?_, fun h => absurd h hfib⟩, hword, fun h => absurd h hfib, ?_⟩
    · rintro ⟨w1, h1⟩
      rw [hrun] at h1
      cases obj <;> simp only [enumerator_ptr] at h1 <;> try (injection h1 with he _; simp at he)
      rename_i p
      cases hq : w.enums[p]? <;> rw [hq] at h1 <;> simp at h1
    · intro e w1 h1
      rw [hrun] at h1
      cases obj <;> simp only [enumerator_ptr] at h1 <;> try (injection h1 with _ hw; exact hw.symm)
      rename_i p
      cases hq : w.enums[p]? <;> rw [hq] at h1 <;> simp at h1
      exact h1.2.symm

/-- Witness for C18: copying from an enumerator whose `fib` is a non-zero word
raises and changes nothing; copying from one whose `fib` is the word `0`, written
as `0` or as `Qfalse`, does not raise. -/
theorem enumerator_init_copy_fails_iff_fib_witness :
    enumerator_init_copy (VALUE.data 1) 9 (VALUE.data 0)
        ⟨[⟨VALUE.obj 7, 5, none, VALUE.obj 4, VALUE.Qnil, VALUE.Qfalse⟩,
          ⟨VALUE.zero, 0, none, VALUE.zero, VALUE.zero, VALUE.zero⟩], [], []⟩
      = Res.raise (Exc.TypeError "can\x27t copy execution context")
          ⟨[⟨VALUE.obj 7, 5, none, VALUE.obj 4, VALUE.Qnil, VALUE.Qfalse⟩,
            ⟨VALUE.zero, 0, none, VALUE.zero, VALUE.zero, VALUE.zero⟩], [], []⟩
    ∧ enumerator_init_copy (VALUE.data 1) 9 (VALUE.data 0)
        ⟨[⟨VALUE.obj 7, 5, none, VALUE.zero, VALUE.Qnil, VALUE.Qfalse⟩,
          ⟨VALUE.zero, 0, none, VALUE.zero, VALUE.zero, VALUE.zero⟩], [], []⟩
      = Res.ok (VALUE.data 1)
          ⟨[⟨VALUE.obj 7, 5, none, VALUE.zero, VALUE.Qnil, VALUE.Qfalse⟩,
            ⟨VALUE.obj 7, 5, none, VALUE.zero, VALUE.zero, VALUE.zero⟩], [], []⟩
    ∧ enumerator_init_copy (VALUE.data 1) 9 (VALUE.data 0)
        ⟨[⟨VALUE.obj 7, 5, none, VALUE.Qfalse, VALUE.Qnil, VALUE.Qfalse⟩,
          ⟨VALUE.zero, 0, none, VALUE.zero, VALUE.zero, VALUE.zero⟩], [], []⟩
      = Res.ok (VALUE.data 1)
          ⟨[⟨VALUE.obj 7, 5, none, VALUE.Qfalse, VALUE.Qnil, VALUE.Qfalse⟩,
            ⟨VALUE.obj 7, 5, none, VALUE.zero, VALUE.zero, VALUE.zero⟩], [], []⟩ :=
  ⟨(enumerator_init_copy_fails_iff_fib (VALUE.data 1) 9 0
      ⟨VALUE.obj 7, 5, none, VALUE.obj 4, VALUE.Qnil, VALUE.Qfalse⟩
      ⟨[⟨VALUE.obj 7, 5, none, VALUE.obj 4, VALUE.Qnil, VALUE.Qfalse⟩,
        ⟨VALUE.zero, 0, none, VALUE.zero, VALUE.zero, VALUE.zero⟩], [], []⟩ rfl).2.2.1
      (by decide),
   by decide, by decide⟩

theorem enumerator_each_enums (rt : Runtime) (blk : Option Block) (obj : VALUE) (sel : SEL)
    (w : World) : (enumerator_each rt blk obj sel w).world.enums = w.enums := by
  cases blk with
  | none => rfl
  | some b =>
    simp only [enumerator_each, enumerator_block_call]
    cases hptr : enumerator_ptr obj w with
    | error e => rfl
    | ok pe =>
      obtain ⟨last1, A, evs, _, hrun⟩ :=
        iterate_each b obj (rt.dispatch pe.2.obj pe.2.sel (pe.2.args.getD [])).emits none
          w.arrays (w.log ++ [Event.call pe.2.obj pe.2.sel (pe.2.args.getD [])])
      simp only [rb_objc_block_call, hrun w.enums]
      rfl

theorem applyOp_keeps_cursor_clear (rt : Runtime) (p : Nat) (op : CursorOp) (w : World)
    (obj0 : VALUE) (sel0 : SEL) (args0 : Option (List VALUE))
    (h : ∃ e, w.enums[p]? = some e ∧ e.fib = VALUE.zero ∧ e.no_next = VALUE.Qfalse
      ∧ e.obj = obj0 ∧ e.sel = sel0 ∧ e.args = args0) :
    ∃ e, (applyOp rt (VALUE.data p) op w).enums[p]? = some e ∧ e.fib = VALUE.zero
      ∧ e.no_next = VALUE.Qfalse ∧ e.obj = obj0 ∧ e.sel = sel0 ∧ e.args = args0 := by
  obtain ⟨e, he, hfib, hnn, hobj, hsel, hargs⟩ := h
  cases op with
  | next => exact ⟨e, he, hfib, hnn, hobj, hsel, hargs⟩
  | rewind =>
    refine ⟨{ e with fib := VALUE.zero, dst := VALUE.Qnil, no_next := VALUE.Qfalse }, ?_,
      rfl, rfl, hobj, hsel, hargs⟩
    simp only [applyOp, enumerator_rewind, enumerator_ptr, he, Res.world, World.store]
    exact getElem?_set_self_of_some w.enums p e _ he
  | each blk =>
    refine ⟨e, ?_, hfib, hnn, hobj, hsel, hargs⟩
    simp only [applyOp]
    rw [enumerator_each_enums]
    exact he

theorem applyOps_keeps_cursor_clear (rt : Runtime) (p : Nat) (obj0 : VALUE) (sel0 : SEL)
    (args0 : Option (List VALUE)) :
    ∀ (ops : List CursorOp) (w : World),
      (∃ e, w.enums[p]? = some e ∧ e.fib = VALUE.zero ∧ e.no_next = VALUE.Qfalse
        ∧ e.obj = obj0 ∧ e.sel = sel0 ∧ e.args = args0) →
      ∃ e, (applyOps rt (VALUE.data p) ops w).enums[p]? = some e ∧ e.fib = VALUE.zero
        ∧ e.no_next = VALUE.Qfalse ∧ e.obj = obj0 ∧ e.sel = sel0 ∧ e.args = args0 := by
  intro ops
  induction ops with
  | nil => intro w h; exact h
  | cons op ops ih =>
    intro w h
    exact ih _ (applyOp_keeps_cursor_clear rt p op w obj0 sel0 args0 h)

/-- C19: `enumerator_next` as compiled returns `nil` on every enumerator state and
leaves the world as it was (no field changes, nothing raised, no dispatch
logged).  Consequently, in the world reached from a fresh enumerator (one made by
`rb_enumeratorize`) by any sequence of `next`, `rewind` and `each`, the struct of
that enumerator has `fib = 0` and `no_next = false`, and still its descriptor. -/
theorem enumerator_next_inert_cursor_stays_clear (rt : Runtime) (obj0 : VALUE) (sel0 : SEL)
    (argv : List VALUE) (w : World) (ops : List CursorOp) :
    (∀ (obj : VALUE) (sel : SEL) (w1 : World), enumerator_next obj sel w1 = Res.ok VALUE.Qnil w1)
    ∧ rb_enumeratorize rt obj0 sel0 argv w
        = Res.ok (VALUE.data w.enums.length) (rb_enumeratorize rt obj0 sel0 argv w).world
    ∧ ∃ e, (applyOps rt (VALUE.data w.enums.length) ops
          (rb_enumeratorize rt obj0 sel0 argv w).world).enums[w.enums.length]? = some e
        ∧ e.fib = VALUE.zero ∧ e.no_next = VALUE.Qfalse
        ∧ e.obj = obj0 ∧ e.sel = sel0
        ∧ e.args = (if 0 < argv.length then some argv else none) := by
  refine ⟨fun _ _ _ => rfl, ?_, ?_⟩
  · rw [rb_enumeratorize_fresh]; rfl
  · apply applyOps_keeps_cursor_clear
    rw [rb_enumeratorize_fresh]
    exact ⟨{ obj := obj0, sel := sel0, args := (if 0 < argv.length then some argv else none),
             fib := VALUE.zero, dst := VALUE.Qnil, no_next := VALUE.Qfalse },
      by simp [Res.world], rfl, rfl, rfl, rfl, rfl⟩
theorem WORD2LONG_lt (y : Nat) (hy : y < 2 ^ 64) : WORD2LONG y < 2 ^ 63 := by
  simp only [WORD2LONG]
  split <;> omega

theorem INT2FIX_lt (rt : Runtime) (ht : 1 ≤ rt.tagBits) (w : Nat) :
    ∀ (i : Int), INT2FIX rt w = VALUE.int i → i < 2 ^ 62 := by
  intro i hi
  simp only [INT2FIX, VALUE.int.injEq] at hi
  have hy : (w * 2 ^ rt.tagBits) % 2 ^ 64 < 2 ^ 64 := Nat.mod_lt _ (by norm_num)
  have h1 := WORD2LONG_lt _ hy
  have h2 : (2 : Int) ^ 1 ≤ 2 ^ rt.tagBits := pow_le_pow_right₀ (by norm_num) ht
  have hP : (0 : Int) < 2 ^ rt.tagBits := by positivity
  rw [← hi]
  apply Int.ediv_lt_of_lt_mul hP
  nlinarith

/-- C20 (the code at the failing input): `NUM2LONG` accepts the offset `2^62`, but
`with_index(2^62)` over `[a, b, c]` hands the block the indices `0, 1, 2` (two tag
bits), not `2^62, 2^62 + 1, 2^62 + 2`.  With at least one tag bit no word is tagged
by `INT2FIX` as the Fixnum `2^62` or more, and the word increment of the counter
wraps from `LONG_MAX` to `LONG_MIN`. -/
theorem enumerator_with_index_offset_beyond_fixnum :
    (sampleRuntime abc).NUM2LONG (VALUE.int (2 ^ 62)) = Except.ok (2 ^ 62)
    ∧ (enumerator_with_index (sampleRuntime abc) (some nopBlock) (VALUE.data 0) 9
        [VALUE.int (2 ^ 62)] oneEnumWorld).world.log.map Event.args
      = [none, some [VALUE.obj 1, VALUE.int 0], some [VALUE.obj 2, VALUE.int 1],
          some [VALUE.obj 3, VALUE.int 2]]
    ∧ (∀ (rt : Runtime), 1 ≤ rt.tagBits → ∀ (w : Nat) (i : Int),
        INT2FIX rt w = VALUE.int i → i < 2 ^ 62)
    ∧ (LONG2WORD (2 ^ 63 - 1) + 1) % 2 ^ 64 = LONG2WORD (-(2 ^ 63)) := by
  refine ⟨?_, ?_, fun rt ht w i h => INT2FIX_lt rt ht w i h, ?_⟩
  · simp [sampleRuntime, sampleNUM2LONG]
  · decide
  · decide

end MacRuby
